import Mathlib

/-!
# strest: bounded-concurrency HTTP load generator

A shallow embedding of `internal/strest/strest.go` and a verification of its
execution core: the latency accumulator, the outcome aggregator
(`processOut`), the request builder (`getRequest`) and the
producer / dispatcher / worker pipeline of `Run`.

Conventions of the embedding.

* A Go `string` is a Lean `String`; `time.Duration` is an `Int` number of
  nanoseconds and duration arithmetic wraps to 64 bits (`wrapInt64`).
* The event counters (`latency.count` and the values of the two count maps)
  are `Int` without wraparound: each is incremented once per consumed outcome
  and a run consumes at most `Requests` outcomes.
* A Go `map[K]int64` that is only ever updated by `m[k]++` is an association
  list with first-match lookup (`mapGet`, `mapIncr`); an absent key reads as
  the zero value.
* An `error` value is represented by its description (`Error()`), `nil` by
  `none`.
-/

namespace Strest

/-! ## Machine integers -/

/-- Two's-complement reduction of an integer to the range of a Go `int64`. -/
def wrapInt64 (x : Int) : Int := (x + 2 ^ 63) % 2 ^ 64 - 2 ^ 63

/-! ## Count maps -/

/-- Go `m[k]` on a count map: the stored count, or the zero value. -/
def mapGet {κ : Type} [DecidableEq κ] : List (κ × Int) → κ → Int
  | [], _ => 0
  | (k', v) :: m, k => if k' = k then v else mapGet m k

/-- Go `m[k]++` on a count map. -/
def mapIncr {κ : Type} [DecidableEq κ] : List (κ × Int) → κ → List (κ × Int)
  | [], k => [(k, 1)]
  | (k', v) :: m, k => if k' = k then (k', v + 1) :: m else (k', v) :: mapIncr m k

/-- Sum of all the values of a count map (`for _, v := range m { total += v }`). -/
def mapTotal {κ : Type} (m : List (κ × Int)) : Int := (m.map Prod.snd).sum

/-! ## Data model -/

/-- Go `type latency struct`. -/
structure latency where
  min : Int
  max : Int
  count : Int
  sum : Int
deriving DecidableEq, Repr

/-- Go `type result struct`: the running statistics. -/
structure result where
  statusCount : List (Int × Int)
  lat : latency
  errors : List (String × Int)
deriving DecidableEq, Repr

/-- Go `type RequestResult struct`: one call outcome. -/
structure RequestResult where
  StatusCode : Int
  Error : Option String
  Elapsed : Int
deriving DecidableEq, Repr

/-- Go `type Result struct`: the summary returned by `Run` (the wall-clock
`TotalTime` field is not part of the embedding). -/
structure Result where
  Min : Int
  Max : Int
  Average : Int
  Statuses : List (Int × Int)
  Errors : List (String × Int)
deriving DecidableEq, Repr

/-! ## Latency accumulator -/

/-- Go `func (l *latency) add(elapsed time.Duration)`. -/
def latency.add (l : latency) (elapsed : Int) : latency :=
  let l1 := { l with count := l.count + 1 }
  let l2 := { l1 with sum := wrapInt64 (l1.sum + elapsed) }
  let l3 := if elapsed < l2.min ∨ l2.min = 0 then { l2 with min := elapsed } else l2
  if elapsed > l3.max then { l3 with max := elapsed } else l3

/-- Go `func (l *latency) average() time.Duration`; Go's `/` on integers
truncates toward zero. -/
def latency.average (l : latency) : Int :=
  if l.count = 0 then 0 else Int.tdiv l.sum l.count

/-- The accumulator built by `NewStrest`. -/
def latency.fresh : latency := { min := 0, max := 0, count := 0, sum := 0 }

/-- The `result` built by `NewStrest`: empty maps and a zero accumulator. -/
def result.fresh : result := { statusCount := [], lat := latency.fresh, errors := [] }

/-! ## Aggregator -/

/-- Body of the loop of `processOut`: consume one outcome. -/
def consume (r : result) (res : RequestResult) : result :=
  match res.Error with
  | some e => { r with errors := mapIncr r.errors e }
  | none =>
    let r1 := { r with lat := r.lat.add res.Elapsed }
    { r1 with statusCount := mapIncr r1.statusCount res.StatusCode }

/-- Go `func (s *Strest) processOut(outChan <-chan *RequestResult)`, on the
sequence of outcomes received from the channel until it is closed. -/
def processOut (r : result) (outChan : List RequestResult) : result :=
  outChan.foldl consume r

/-- The `Result` literal at the end of `Run`. -/
def summary (r : result) : Result :=
  { Min := r.lat.min, Max := r.lat.max, Average := r.lat.average,
    Statuses := r.statusCount, Errors := r.errors }

/-- A successful outcome, as built by `work` when `client.Do` returns no error. -/
def success (status elapsed : Int) : RequestResult :=
  { StatusCode := status, Error := none, Elapsed := elapsed }

/-- A failed outcome, as built by `work` when `client.Do` returns an error. -/
def failure (err : String) (elapsed : Int) : RequestResult :=
  { StatusCode := 0, Error := some err, Elapsed := elapsed }

/-! ## Request builder -/

/-- Go `type Configuration struct`. -/
structure Configuration where
  URL : String
  Method : String
  Headers : List String
  Body : String
  Timeout : Int
  Requests : Int
  Concurrency : Int
  Warmup : Int
deriving DecidableEq, Repr

/-- Go `http.Header`, a `map[string][]string` that is only updated by `Set`:
an association list with first-match lookup. -/
abbrev Header := List (String × List String)

/-- The part of `*http.Request` that `getRequest` determines. -/
structure Request where
  Method : String
  URL : String
  Header : Header
  Body : Option String
deriving DecidableEq, Repr

/-- The library functions `getRequest` calls and whose result the embedding
leaves open: the validation done by `http.NewRequest` (`none` when the method
and the URL are accepted, else the error) and the encoding `json.Marshal`
gives a string (it returns no error on a string, so the error branch after
it in `getRequest` is dead). -/
structure Env where
  newRequestError : String → String → Option String
  jsonMarshal : String → String

/-- Result of a Go call that returns `(value, error)` and may panic. -/
inductive Built (α : Type) where
  | ok (a : α)
  | err (e : String)
  | panic (msg : String)
deriving DecidableEq, Repr

/-- Go `strings.Split(s, sep)` for a one-byte separator, on the characters of
the string: the pieces between ALL occurrences of `sep`. -/
def splitChars (sep : Char) : List Char → List (List Char)
  | [] => [[]]
  | c :: cs =>
    if c = sep then [] :: splitChars sep cs
    else (c :: (splitChars sep cs).headD []) :: (splitChars sep cs).tail

/-- Go `strings.Split(s, sep)` for a one-byte separator. -/
def stringsSplit (s : String) (sep : Char) : List String :=
  (splitChars sep s.data).map String.mk

/-- The token bytes of RFC 7230 (`validHeaderFieldByte` of `net/textproto`). -/
def validHeaderFieldByte (c : Char) : Bool :=
  c.isAlphanum || c ∈ ['!', '#', '$', '%', '&', Char.ofNat 39, '*', '+', '-', '.', '^', '_',
    Char.ofNat 96, '|', '~']

/-- One byte of the case normalisation of `net/textproto`. -/
def canonChar (upper : Bool) (c : Char) : Char :=
  if upper && c.isLower then c.toUpper
  else if !upper && c.isUpper then c.toLower else c

/-- The case normalisation of `net/textproto`: upper case at the start and
after each `-`, lower case elsewhere. -/
def canonChars : Bool → List Char → List Char
  | _, [] => []
  | upper, c :: cs => canonChar upper c :: canonChars (canonChar upper c == '-') cs

/-- Go `textproto.CanonicalMIMEHeaderKey`: a key with a byte that is not a
token byte is returned unchanged. -/
def canonicalMIMEHeaderKey (s : String) : String :=
  if s.data.all validHeaderFieldByte then String.mk (canonChars true s.data) else s

/-- Assignment `h[key] = vs` on a header map. -/
def headerPut : Header → String → List String → Header
  | [], key, vs => [(key, vs)]
  | (k, old) :: h, key, vs =>
    if k = key then (k, vs) :: h else (k, old) :: headerPut h key vs

/-- Lookup `h[key]` on a header map (`nil`, the empty list, if absent). -/
def headerLookup : Header → String → List String
  | [], _ => []
  | (k, vs) :: h, key => if k = key then vs else headerLookup h key

/-- Go `func (h Header) Set(key, value string)`. -/
def Header.Set (h : Header) (key value : String) : Header :=
  headerPut h (canonicalMIMEHeaderKey key) [value]

/-- Go `func (h Header) Values(key string) []string`. -/
def Header.Values (h : Header) (key : String) : List String :=
  headerLookup h (canonicalMIMEHeaderKey key)

/-- Go `func (h Header) Get(key string) string`. -/
def Header.Get (h : Header) (key : String) : String :=
  (h.Values key).headD ""

/-- Go `http.NewRequest(method, url, body)`: an empty method means `GET`, the
header map starts empty. -/
def newRequest (env : Env) (method url : String) (body : Option String) :
    Except String Request :=
  match env.newRequestError method url with
  | some e => .error e
  | none =>
    .ok { Method := if method = "" then "GET" else method, URL := url, Header := [],
          Body := body }

/-- The header loop of `getRequest`; `none` is the run-time panic of an
out-of-range index on the split parts. -/
def setHeaders : Header → List String → Option Header
  | hd, [] => some hd
  | hd, h :: hs =>
    let header := stringsSplit h ':'
    match header[0]?, header[1]? with
    | some name, some value => setHeaders (hd.Set name value) hs
    | _, _ => none

/-- Go `func (s *Strest) getRequest() (*http.Request, error)`. -/
def getRequest (env : Env) (config : Configuration) : Built Request :=
  let made : Except String Request :=
    if config.Body ≠ "" then
      newRequest env config.Method config.URL (some (env.jsonMarshal config.Body))
    else newRequest env config.Method config.URL none
  match made with
  | .error e => Built.err e
  | .ok req =>
    match setHeaders req.Header config.Headers with
    | none => Built.panic "index out of range"
    | some hd => Built.ok { req with Header := hd.Set "Content-Type" "application/json" }

/-! ## The pipeline of `Run`

`Run` is a concurrent program: the calling goroutine (warm-up, the producer
loop, then `processOut`), the dispatcher goroutine and one goroutine per
admitted request (`work`).  It is embedded as a transition system whose
steps are the channel and `WaitGroup` operations of the source; an
interleaving is a list of actions, each naming the goroutine that moves.
A buffered channel of capacity `c` accepts a send while it holds fewer than
`c` elements; on a channel of capacity `0` a send happens together with the
matching receive. -/

/-- What `client.Do` returns: a response with a status code, or an error. -/
inductive Response where
  | status (code : Int)
  | transportError (err : String)
deriving DecidableEq, Repr

/-- Program counter of the goroutine that called `Run`. -/
inductive MainPc where
  /-- In the warm-up loop, with `left` iterations to go. -/
  | warmup (left : Nat)
  /-- At the head of the measured loop, with `left` iterations to go. -/
  | produce (left : Nat)
  /-- At `inChan <- req`, with `left` iterations to go afterwards. -/
  | sending (req : Request) (left : Nat)
  /-- In `processOut`, at the receive of `range outChan`. -/
  | processing
  /-- After `return &Result ...`. -/
  | returned (r : Result)
deriving DecidableEq, Repr

/-- Program counter of the dispatcher goroutine (`go func() ...` in `Run`). -/
inductive DispPc where
  /-- The `go` statement has not been executed yet. -/
  | notStarted
  /-- At the receive of `range inChan`. -/
  | idle
  /-- At `s.workerChan <- struct`. -/
  | acquiring (req : Request)
  /-- At `wg.Add(1); go s.work(...)`. -/
  | spawning (req : Request)
  /-- At `wg.Wait()`. -/
  | waiting
  /-- After `close(outChan)`. -/
  | done
deriving DecidableEq, Repr

/-- Program counter of one `work` goroutine. -/
inductive WorkerPc where
  /-- Before `client.Do(req)` has returned. -/
  | calling (req : Request)
  /-- At `outChan <- &RequestResult ...`. -/
  | sendingOut (res : RequestResult)
  /-- At `wg.Done()`. -/
  | afterSend
  /-- At `<-s.workerChan`. -/
  | releasing
  /-- The goroutine has finished. -/
  | exited
deriving DecidableEq, Repr

/-- A step of one goroutine. For a worker the action carries what the send
capability answers if the step is the return of `client.Do`. -/
inductive Action where
  | main
  | dispatcher
  | worker (i : Nat) (resp : Response) (elapsed : Int)
deriving DecidableEq, Repr

/-- State of a run. `inChan`, `outChan` are the buffers of the two channels
of `Run`, `workerChan` the number of slots held in `s.workerChan`, `wg` the
counter of the `WaitGroup`, `panicked` is set when some goroutine panics. -/
structure State where
  main : MainPc
  disp : DispPc
  workers : List WorkerPc
  inChan : List Request
  inChanClosed : Bool
  outChan : List RequestResult
  outChanClosed : Bool
  workerChan : Nat
  wg : Nat
  result : result
  panicked : Bool
deriving DecidableEq, Repr

/-- Number of iterations of Go's `for range n`. -/
def rangeCount (n : Int) : Nat := n.toNat

/-- Go `NewStrest(config)` followed by the entry of `Run`; `none` is the
panic of `make(chan struct, config.Concurrency)` on a negative capacity. -/
def NewStrest (config : Configuration) : Option State :=
  if config.Concurrency < 0 then none
  else some
    { main := MainPc.warmup (rangeCount config.Warmup), disp := DispPc.notStarted,
      workers := [], inChan := [], inChanClosed := false, outChan := [],
      outChanClosed := false, workerChan := 0, wg := 0, result := result.fresh,
      panicked := false }

/-- The outcome `work` emits for what `client.Do` returned. -/
def outcomeOf (resp : Response) (elapsed : Int) : RequestResult :=
  match resp with
  | Response.transportError err => { StatusCode := 0, Error := some err, Elapsed := elapsed }
  | Response.status code => { StatusCode := code, Error := none, Elapsed := elapsed }

/-- Steps of the goroutine that called `Run`. -/
def stepMain (env : Env) (config : Configuration) (s : State) : Option State :=
  match s.main with
  | MainPc.warmup (left + 1) =>
    match getRequest env config with
    | Built.panic _ => some { s with panicked := true }
    | Built.err _ => some { s with main := MainPc.warmup left }
    | Built.ok _ => some { s with main := MainPc.warmup left }
  | MainPc.warmup 0 =>
    if config.Requests < 0 then some { s with panicked := true }
    else some { s with main := MainPc.produce (rangeCount config.Requests),
                       disp := DispPc.idle }
  | MainPc.produce (left + 1) =>
    match getRequest env config with
    | Built.panic _ => some { s with panicked := true }
    | Built.err _ => some { s with main := MainPc.produce left }
    | Built.ok req => some { s with main := MainPc.sending req left }
  | MainPc.produce 0 =>
    if s.inChanClosed then some { s with panicked := true }
    else some { s with inChanClosed := true, main := MainPc.processing }
  | MainPc.sending req left =>
    if s.inChanClosed then some { s with panicked := true }
    else if s.inChan.length < rangeCount config.Concurrency then
      some { s with inChan := s.inChan ++ [req], main := MainPc.produce left }
    else if rangeCount config.Concurrency = 0 ∧ s.disp = DispPc.idle then
      some { s with disp := DispPc.acquiring req, main := MainPc.produce left }
    else none
  | MainPc.processing =>
    match s.outChan with
    | res :: rest => some { s with outChan := rest, result := consume s.result res }
    | [] =>
      if s.outChanClosed then some { s with main := MainPc.returned (summary s.result) }
      else none
  | MainPc.returned _ => none

/-- Steps of the dispatcher goroutine. -/
def stepDispatcher (config : Configuration) (s : State) : Option State :=
  match s.disp with
  | DispPc.notStarted => none
  | DispPc.idle =>
    match s.inChan with
    | req :: rest => some { s with inChan := rest, disp := DispPc.acquiring req }
    | [] => if s.inChanClosed then some { s with disp := DispPc.waiting } else none
  | DispPc.acquiring req =>
    if s.workerChan < rangeCount config.Concurrency then
      some { s with workerChan := s.workerChan + 1, disp := DispPc.spawning req }
    else none
  | DispPc.spawning req =>
    some { s with wg := s.wg + 1, workers := s.workers ++ [WorkerPc.calling req],
                  disp := DispPc.idle }
  | DispPc.waiting =>
    if s.wg = 0 then
      if s.outChanClosed then some { s with panicked := true }
      else some { s with outChanClosed := true, disp := DispPc.done }
    else none
  | DispPc.done => none

/-- Go `func (s *Strest) work(client, req, outChan, wg)`: the steps of the
`i`-th worker goroutine. -/
def work (config : Configuration) (s : State) (i : Nat) (resp : Response)
    (elapsed : Int) : Option State :=
  match s.workers[i]? with
  | none => none
  | some (WorkerPc.calling _) =>
    some { s with workers := s.workers.set i (WorkerPc.sendingOut (outcomeOf resp elapsed)) }
  | some (WorkerPc.sendingOut res) =>
    if s.outChanClosed then some { s with panicked := true }
    else if s.outChan.length < rangeCount config.Requests then
      some { s with outChan := s.outChan ++ [res],
                    workers := s.workers.set i WorkerPc.afterSend }
    else if rangeCount config.Requests = 0 ∧ s.main = MainPc.processing then
      some { s with result := consume s.result res,
                    workers := s.workers.set i WorkerPc.afterSend }
    else none
  | some WorkerPc.afterSend =>
    if s.wg = 0 then some { s with panicked := true }
    else some { s with wg := s.wg - 1, workers := s.workers.set i WorkerPc.releasing }
  | some WorkerPc.releasing =>
    if 0 < s.workerChan then
      some { s with workerChan := s.workerChan - 1,
                    workers := s.workers.set i WorkerPc.exited }
    else
      match s.disp with
      | DispPc.acquiring req =>
        if rangeCount config.Concurrency = 0 then
          some { s with disp := DispPc.spawning req,
                        workers := s.workers.set i WorkerPc.exited }
        else none
      | _ => none
  | some WorkerPc.exited => none

/-- One step of the run: the goroutine named by the action moves; `none`
when that goroutine is blocked, has finished or does not exist, or when the
process has died of a panic. -/
def step (env : Env) (config : Configuration) (s : State) (a : Action) : Option State :=
  if s.panicked then none
  else
    match a with
    | Action.main => stepMain env config s
    | Action.dispatcher => stepDispatcher config s
    | Action.worker i resp elapsed => work config s i resp elapsed

/-- The state reached from `s` by an interleaving, if every action of it is
enabled when its turn comes. -/
def exec (env : Env) (config : Configuration) : State → List Action → Option State
  | s, [] => some s
  | s, a :: rest =>
    match step env config s a with
    | none => none
    | some s1 => exec env config s1 rest

/-- Go `func (s *Strest) Run() (*Result, error)` under an interleaving: the
state reached from the one `NewStrest` builds. -/
def Run (env : Env) (config : Configuration) (schedule : List Action) : Option State :=
  match NewStrest config with
  | none => none
  | some s0 => exec env config s0 schedule

/-- Weighted count of the workers. -/
def countWorkers (f : WorkerPc → Nat) (ws : List WorkerPc) : Nat := (ws.map f).sum

/-- A call is in flight from the start of its worker until the worker has
finished its send on `outChan`. -/
def WorkerPc.inFlight : WorkerPc → Nat
  | WorkerPc.calling _ => 1
  | WorkerPc.sendingOut _ => 1
  | _ => 0

/-- The number of calls simultaneously in flight. -/
def inFlight (s : State) : Nat := countWorkers WorkerPc.inFlight s.workers

/-- The number of outcomes recorded in a summary. -/
def Result.total (r : Result) : Int := mapTotal r.Statuses + mapTotal r.Errors

/-- Whether a call of `getRequest` fails with a `BuildError`. -/
def buildFails (env : Env) (config : Configuration) : Bool :=
  match getRequest env config with
  | Built.err _ => true
  | _ => false

/-- The number of iterations of the measured loop whose build fails. -/
def buildFailures (env : Env) (config : Configuration) : Nat :=
  ((List.range (rangeCount config.Requests)).filter (fun _ => buildFails env config)).length


/-! ## Concrete inputs -/

/-- An environment whose `http.NewRequest` accepts every method and URL. -/
def acceptAll : Env := { newRequestError := fun _ _ => none, jsonMarshal := fun b => b }

/-- A `GET` configuration for one request with the given header entries. -/
def headerConfig (headers : List String) : Configuration :=
  { URL := "http://localhost:8080", Method := "GET", Headers := headers, Body := "",
    Timeout := 10, Requests := 1, Concurrency := 1, Warmup := 0 }

/-- A configuration with the given request count and concurrency limit, no
warm-up and no caller header. -/
def loadConfig (requests concurrency : Int) : Configuration :=
  { URL := "http://localhost:8080", Method := "GET", Headers := [], Body := "",
    Timeout := 10, Requests := requests, Concurrency := concurrency, Warmup := 0 }

/-! ## Measures on the state of a run -/

/-- A worker holds a slot of `workerChan` until it has finished. -/
def WorkerPc.alive : WorkerPc → Nat
  | WorkerPc.exited => 0
  | _ => 1

/-- A worker counts in the `WaitGroup` until its `wg.Done()`. -/
def WorkerPc.waitedFor : WorkerPc → Nat
  | WorkerPc.calling _ => 1
  | WorkerPc.sendingOut _ => 1
  | WorkerPc.afterSend => 1
  | _ => 0

/-- The slot the dispatcher has acquired for a worker it has not started yet. -/
def DispPc.slotInHand : DispPc → Nat
  | DispPc.spawning _ => 1
  | _ => 0

/-- The request the dispatcher has received and not yet handed to a worker. -/
def DispPc.holding : DispPc → Nat
  | DispPc.acquiring _ => 1
  | DispPc.spawning _ => 1
  | _ => 0

/-- The request the producer has built and not yet sent. -/
def MainPc.holding : MainPc → Nat
  | MainPc.sending _ _ => 1
  | _ => 0

/-- The iterations of the measured loop still to run, `requests` of them
during the warm-up. -/
def MainPc.left (requests : Nat) : MainPc → Nat
  | MainPc.warmup _ => requests
  | MainPc.produce left => left
  | MainPc.sending _ left => left
  | _ => 0

/-- The slot discipline of `workerChan`: every slot held belongs to a worker
that has not finished or to the worker the dispatcher is about to start, and
no more than `Concurrency` slots are held; the dispatcher does not run during
the warm-up. -/
def SlotInv (config : Configuration) (s : State) : Prop :=
  countWorkers WorkerPc.alive s.workers + s.disp.slotInHand = s.workerChan ∧
  s.workerChan ≤ rangeCount config.Concurrency ∧
  (∀ n, s.main = MainPc.warmup n → s.disp = DispPc.notStarted)

/-- The number of outcomes recorded in the running statistics. -/
def result.recorded (r : result) : Int := mapTotal r.statusCount + mapTotal r.errors

/-- The number of outcomes that `n` iterations of the measured loop put into
the pipeline: one per iteration, none if the build fails. -/
def expected (env : Env) (config : Configuration) (n : Nat) : Nat :=
  if buildFails env config then 0 else n

/-- The flow of requests and outcomes through the pipeline, in a state where
no goroutine has panicked. Every iteration of the measured loop that builds
a request accounts for exactly one item: a request held by the producer, in
`inChan` or held by the dispatcher, a call in flight, an outcome in
`outChan`, or an outcome recorded in the statistics. -/
structure FlowInv (env : Env) (config : Configuration) (s : State) : Prop where
  balance :
    s.result.recorded + (s.outChan.length : Int) +
        (countWorkers WorkerPc.inFlight s.workers : Int) + (s.disp.holding : Int) +
        (s.inChan.length : Int) + (s.main.holding : Int) +
        (expected env config (s.main.left (rangeCount config.Requests)) : Int) =
      (expected env config (rangeCount config.Requests) : Int)
  waitGroup : s.wg = countWorkers WorkerPc.waitedFor s.workers
  outClosed : s.outChanClosed = true → s.disp = DispPc.done
  dispDone : s.disp = DispPc.done → s.wg = 0
  dispPast : s.disp = DispPc.waiting ∨ s.disp = DispPc.done →
    s.inChanClosed = true ∧ s.inChan = []
  inClosed : s.inChanClosed = true →
    s.main = MainPc.processing ∨ ∃ r, s.main = MainPc.returned r
  folded : ∃ outs, s.result = processOut result.fresh outs
  notStarted : ∀ n, s.main = MainPc.warmup n → s.disp = DispPc.notStarted

/-- What a returned summary is: the fold of as many outcomes as the measured
loop built requests. -/
def ReturnedInv (env : Env) (config : Configuration) (s : State) : Prop :=
  ∀ r, s.main = MainPc.returned r →
    ∃ outs : List RequestResult,
      r = summary (processOut result.fresh outs) ∧
      outs.length = expected env config (rangeCount config.Requests)

/-- The invariant of a run. -/
def RunInv (env : Env) (config : Configuration) (s : State) : Prop :=
  (s.panicked = false → FlowInv env config s) ∧ ReturnedInv env config s

/-- Whether the calling goroutine is still in the warm-up. -/
def MainPc.isWarmup : MainPc → Bool
  | MainPc.warmup _ => true
  | _ => false

/-- Once the warm-up is over the channels of `Run` exist: `Requests` was
accepted as the capacity of `outChan`. -/
def StartedInv (config : Configuration) (s : State) : Prop :=
  s.main.isWarmup = false → 0 ≤ config.Requests

/-! ## A sequential interleaving

The interleaving in which every admitted call runs to completion before the
next request is built: it shows that `Run` does return, with any answers of
the send capability. -/

/-- One iteration run to completion: build, `inChan <- req`, the receive of
the dispatcher, the slot, the start of worker `i`, its call, its emit, its
`wg.Done()` and its release. -/
def iterationSchedule (i : Nat) (resp : Response) (elapsed : Int) : List Action :=
  [Action.main, Action.main, Action.dispatcher, Action.dispatcher, Action.dispatcher,
    Action.worker i resp elapsed, Action.worker i resp elapsed,
    Action.worker i resp elapsed, Action.worker i resp elapsed]

/-- The iterations for the given answers, the first one starting worker `i`. -/
def iterationsSchedule : Nat → List (Response × Int) → List Action
  | _, [] => []
  | i, (resp, elapsed) :: rest =>
    iterationSchedule i resp elapsed ++ iterationsSchedule (i + 1) rest

/-- The end of a run with `n` outcomes in `outChan`: `close(inChan)`, the
dispatcher leaves its loop and closes `outChan`, `processOut` receives the
`n` outcomes and `Run` returns. -/
def drainSchedule (n : Nat) : List Action :=
  [Action.main, Action.dispatcher, Action.dispatcher] ++ List.replicate n Action.main ++
    [Action.main]

/-- The sequential interleaving of a run whose builds succeed, for the given
answers of the send capability. -/
def sequentialSchedule (config : Configuration) (answers : List (Response × Int)) :
    List Action :=
  List.replicate (rangeCount config.Warmup) Action.main ++ [Action.main] ++
    iterationsSchedule 0 answers ++ drainSchedule answers.length

/-- The interleaving of a run whose builds all fail. -/
def failingSchedule (config : Configuration) : List Action :=
  List.replicate (rangeCount config.Warmup) Action.main ++ [Action.main] ++
    List.replicate (rangeCount config.Requests) Action.main ++ drainSchedule 0

/-- The interleaving used to show that `Run` returns. -/
def fullSchedule (env : Env) (config : Configuration) (answers : List (Response × Int)) :
    List Action :=
  if buildFails env config then failingSchedule config else sequentialSchedule config answers

/-- The state during the warm-up, `left` iterations of it to go. -/
def warmupState (left : Nat) : State :=
  { main := MainPc.warmup left, disp := DispPc.notStarted, workers := [], inChan := [],
    inChanClosed := false, outChan := [], outChanClosed := false, workerChan := 0, wg := 0,
    result := result.fresh, panicked := false }

/-- The state between two iterations of the sequential interleaving. -/
def quiescent (left : Nat) (ws : List WorkerPc) (outs : List RequestResult) : State :=
  { main := MainPc.produce left, disp := DispPc.idle, workers := ws, inChan := [],
    inChanClosed := false, outChan := outs, outChanClosed := false, workerChan := 0, wg := 0,
    result := result.fresh, panicked := false }

/-- The state while `processOut` drains the closed `outChan`. -/
def draining (ws : List WorkerPc) (outs : List RequestResult) (r : result) : State :=
  { main := MainPc.processing, disp := DispPc.done, workers := ws, inChan := [],
    inChanClosed := true, outChan := outs, outChanClosed := true, workerChan := 0, wg := 0,
    result := r, panicked := false }

/-- The outcomes of the given answers of the send capability. -/
def outcomes (answers : List (Response × Int)) : List RequestResult :=
  answers.map (fun a => outcomeOf a.1 a.2)

/-- An interleaving that brings two calls in flight at once. -/
def twoInFlight : List Action :=
  [Action.main, Action.main, Action.main, Action.dispatcher, Action.dispatcher,
    Action.dispatcher, Action.main, Action.main, Action.dispatcher, Action.dispatcher,
    Action.dispatcher]

/-- The summary of a run that consumed no outcome. -/
def Result.zero : Result := { Min := 0, Max := 0, Average := 0, Statuses := [], Errors := [] }

/-- The keys of a header map built by `Set` alone: pairwise distinct, each
the canonical form of some name. -/
def Header.WellFormed (h : Header) : Prop :=
  (h.map Prod.fst).Nodup ∧ ∀ k ∈ h.map Prod.fst, ∃ name, k = canonicalMIMEHeaderKey name

/-- The accumulator holds exactly the statistics of the samples `es`: their
number, their sum, the least and the greatest of them. -/
structure latency.Summarises (l : latency) (es : List Int) : Prop where
  count : l.count = es.length
  sum : l.sum = es.sum
  min_mem : l.min ∈ es
  min_le : ∀ e ∈ es, l.min ≤ e
  max_mem : l.max ∈ es
  max_ge : ∀ e ∈ es, e ≤ l.max

/-- The elapsed durations of the successful outcomes, in arrival order. -/
def successDurations (outs : List RequestResult) : List Int :=
  (outs.filter (fun o => o.Error = none)).map (fun o => o.Elapsed)

/-! ## Count maps: lemmas -/

theorem mapGet_mapIncr_self {κ : Type} [DecidableEq κ] (m : List (κ × Int)) (k : κ) :
    mapGet (mapIncr m k) k = mapGet m k + 1 := by
  induction m with
  | nil => simp [mapIncr, mapGet]
  | cons p m ih =>
    obtain ⟨k1, v⟩ := p
    by_cases hk : k1 = k
    · simp [mapIncr, mapGet, hk]
    · simp [mapIncr, mapGet, hk, ih]

theorem mapGet_mapIncr_ne {κ : Type} [DecidableEq κ] (m : List (κ × Int)) (k k2 : κ)
    (hne : k2 ≠ k) : mapGet (mapIncr m k) k2 = mapGet m k2 := by
  induction m with
  | nil => simp [mapIncr, mapGet, Ne.symm hne]
  | cons p m ih =>
    obtain ⟨k1, v⟩ := p
    by_cases hk : k1 = k
    · subst hk
      simp [mapIncr, mapGet, Ne.symm hne]
    · by_cases hk2 : k1 = k2
      · subst hk2
        simp [mapIncr, mapGet, hk]
      · simp [mapIncr, mapGet, hk, hk2, ih]

theorem mapTotal_mapIncr {κ : Type} [DecidableEq κ] (m : List (κ × Int)) (k : κ) :
    mapTotal (mapIncr m k) = mapTotal m + 1 := by
  induction m with
  | nil => simp [mapIncr, mapTotal]
  | cons p m ih =>
    obtain ⟨k1, v⟩ := p
    by_cases hk : k1 = k
    · simp [mapIncr, mapTotal, hk]; ring
    · simp only [mapTotal] at ih
      simp [mapIncr, mapTotal, hk, ih]; ring

/-! ## Aggregator: lemmas -/

theorem processOut_cons (r : result) (o : RequestResult) (outs : List RequestResult) :
    processOut r (o :: outs) = processOut (consume r o) outs := rfl

theorem processOut_append (r : result) (xs ys : List RequestResult) :
    processOut r (xs ++ ys) = processOut (processOut r xs) ys := by
  simp [processOut, List.foldl_append]

theorem consume_error (r : result) (res : RequestResult) (e : String)
    (h : res.Error = some e) : consume r res = { r with errors := mapIncr r.errors e } := by
  simp [consume, h]

theorem consume_success (r : result) (res : RequestResult) (h : res.Error = none) :
    consume r res =
      { r with lat := r.lat.add res.Elapsed,
               statusCount := mapIncr r.statusCount res.StatusCode } := by
  simp [consume, h]

/-- The number of recorded outcomes grows by one with each consumed outcome. -/
theorem recorded_consume (r : result) (res : RequestResult) :
    mapTotal (consume r res).statusCount + mapTotal (consume r res).errors =
      mapTotal r.statusCount + mapTotal r.errors + 1 := by
  cases h : res.Error with
  | none => rw [consume_success r res h]; simp [mapTotal_mapIncr]; ring
  | some e => rw [consume_error r res e h]; simp [mapTotal_mapIncr]; ring

theorem recorded_processOut (outs : List RequestResult) (r : result) :
    mapTotal (processOut r outs).statusCount + mapTotal (processOut r outs).errors =
      mapTotal r.statusCount + mapTotal r.errors + outs.length := by
  induction outs generalizing r with
  | nil => simp [processOut]
  | cons o outs ih =>
    rw [processOut_cons, ih, recorded_consume]
    simp; ring

/-- The latency accumulator after a run of outcomes is determined by the
accumulator before it and the successful outcomes among them. -/
theorem processOut_lat_filter (outs : List RequestResult) (r r2 : result)
    (h : r.lat = r2.lat) :
    (processOut r outs).lat =
      (processOut r2 (outs.filter (fun o => o.Error = none))).lat := by
  induction outs generalizing r r2 with
  | nil => simpa [processOut] using h
  | cons o outs ih =>
    cases ho : o.Error with
    | none =>
      rw [List.filter_cons_of_pos (by simpa using ho), processOut_cons, processOut_cons]
      apply ih
      rw [consume_success r o ho, consume_success r2 o ho]
      simp [h]
    | some e =>
      rw [List.filter_cons_of_neg (by simp [ho]), processOut_cons]
      apply ih
      rw [consume_error r o e ho]
      simpa using h
/-! ## Request builder: lemmas -/

theorem splitChars_ne_nil (sep : Char) (cs : List Char) : splitChars sep cs ≠ [] := by
  cases cs with
  | nil => simp [splitChars]
  | cons c cs =>
    by_cases h : c = sep <;> simp [splitChars, h]

theorem splitChars_of_not_mem (sep : Char) (cs : List Char) (h : sep ∉ cs) :
    splitChars sep cs = [cs] := by
  induction cs with
  | nil => simp [splitChars]
  | cons c cs ih =>
    have hc : c ≠ sep := fun e => h (by simp [e])
    have hcs : sep ∉ cs := fun e => h (by simp [e])
    simp [splitChars, hc, ih hcs]

theorem splitChars_length_of_mem (sep : Char) (cs : List Char) (h : sep ∈ cs) :
    2 ≤ (splitChars sep cs).length := by
  induction cs with
  | nil => simp at h
  | cons c cs ih =>
    by_cases hc : c = sep
    · have := splitChars_ne_nil sep cs
      have hpos : 0 < (splitChars sep cs).length := List.length_pos.mpr this
      simp [splitChars, hc]
      omega
    · have hcs : sep ∈ cs := by
        rcases List.mem_cons.mp h with h1 | h1
        · exact absurd h1.symm hc
        · exact h1
      have := ih hcs
      simp [splitChars, hc]
      omega

theorem headerLookup_headerPut_self (h : Header) (key : String) (vs : List String) :
    headerLookup (headerPut h key vs) key = vs := by
  induction h with
  | nil => simp [headerPut, headerLookup]
  | cons p h ih =>
    obtain ⟨k, old⟩ := p
    by_cases hk : k = key
    · simp [headerPut, headerLookup, hk]
    · simp [headerPut, headerLookup, hk, ih]

/-- The header loop panics exactly when some entry has no `:`. -/
theorem setHeaders_eq_none_iff (hs : List String) (hd : Header) :
    setHeaders hd hs = none ↔ ∃ h ∈ hs, ':' ∉ h.data := by
  induction hs generalizing hd with
  | nil => simp [setHeaders]
  | cons h hs ih =>
    by_cases hc : ':' ∈ h.data
    · have hlen := splitChars_length_of_mem ':' h.data hc
      obtain ⟨a, rest, hrest⟩ : ∃ a rest, splitChars ':' h.data = a :: rest := by
        cases hsp : splitChars ':' h.data with
        | nil => simp [hsp] at hlen
        | cons a rest => exact ⟨a, rest, rfl⟩
      obtain ⟨b, rest2, hrest2⟩ : ∃ b rest2, rest = b :: rest2 := by
        cases rest with
        | nil => simp [hrest] at hlen
        | cons b rest2 => exact ⟨b, rest2, rfl⟩
      subst hrest2
      simp [setHeaders, stringsSplit, hrest, ih, hc]
    · have hsp := splitChars_of_not_mem ':' h.data hc
      simp [setHeaders, stringsSplit, hsp, hc]
/-! ## The pipeline: counting lemmas -/

theorem countWorkers_append (f : WorkerPc → Nat) (ws : List WorkerPc) (w : WorkerPc) :
    countWorkers f (ws ++ [w]) = countWorkers f ws + f w := by
  simp [countWorkers]

theorem countWorkers_set (f : WorkerPc → Nat) (ws : List WorkerPc) (i : Nat)
    (a b : WorkerPc) (h : ws[i]? = some a) :
    countWorkers f (ws.set i b) + f a = countWorkers f ws + f b := by
  induction ws generalizing i with
  | nil => simp at h
  | cons w ws ih =>
    cases i with
    | zero =>
      simp at h
      subst h
      simp [countWorkers]
      omega
    | succ i =>
      simp at h
      have := ih i h
      simp [countWorkers] at this ⊢
      omega

theorem countWorkers_le (f g : WorkerPc → Nat) (hfg : ∀ w, f w ≤ g w) (ws : List WorkerPc) :
    countWorkers f ws ≤ countWorkers g ws := by
  induction ws with
  | nil => simp [countWorkers]
  | cons w ws ih =>
    have := hfg w
    simp [countWorkers] at ih ⊢
    omega

theorem inFlight_le_alive (ws : List WorkerPc) :
    countWorkers WorkerPc.inFlight ws ≤ countWorkers WorkerPc.alive ws := by
  apply countWorkers_le
  intro w
  cases w <;> simp [WorkerPc.inFlight, WorkerPc.alive]

theorem inFlight_le_waitedFor (ws : List WorkerPc) :
    countWorkers WorkerPc.inFlight ws ≤ countWorkers WorkerPc.waitedFor ws := by
  apply countWorkers_le
  intro w
  cases w <;> simp [WorkerPc.inFlight, WorkerPc.waitedFor]

/-! ## The pipeline: the slot discipline -/

theorem stepMain_slots (env : Env) (config : Configuration) (s t : State)
    (h : stepMain env config s = some t) (hinv : SlotInv config s) : SlotInv config t := by
  obtain ⟨hi1, hi2, hi3⟩ := hinv
  unfold stepMain at h
  split at h
  · rename_i left hm
    have hd := hi3 _ hm
    split at h <;> (injection h with h; subst h; simp_all [SlotInv])
  · rename_i hm
    have hd := hi3 _ hm
    split at h <;> (injection h with h; subst h; simp_all [SlotInv, DispPc.slotInHand])
  · rename_i left hm
    split at h <;> (injection h with h; subst h; simp_all [SlotInv])
  · rename_i hm
    split at h <;> (injection h with h; subst h; simp_all [SlotInv])
  · rename_i req left hm
    split at h
    · injection h with h; subst h; simp_all [SlotInv]
    · split at h
      · injection h with h; subst h; simp_all [SlotInv]
      · split at h
        · rename_i hc
          injection h with h; subst h; simp_all [SlotInv, DispPc.slotInHand]
        · simp at h
  · rename_i hm
    split at h
    · injection h with h; subst h; simp_all [SlotInv]
    · split at h
      · injection h with h; subst h; simp_all [SlotInv]
      · simp at h
  · simp at h

theorem step_slots (env : Env) (config : Configuration) (s t : State) (a : Action)
    (h : step env config s a = some t) (hinv : SlotInv config s) : SlotInv config t := by
  unfold step at h
  split at h
  · simp at h
  · cases a with
    | main => exact stepMain_slots env config s t h hinv
    | dispatcher =>
      simp only at h
      unfold stepDispatcher at h
      obtain ⟨hi1, hi2, hi3⟩ := hinv
      split at h
      · simp at h
      · split at h
        · injection h with h; subst h
          simp_all [SlotInv, DispPc.slotInHand]
        · split at h
          · injection h with h; subst h
            simp_all [SlotInv, DispPc.slotInHand]
          · simp at h
      · split at h
        · injection h with h; subst h
          simp_all [SlotInv, DispPc.slotInHand]
          omega
        · simp at h
      · injection h with h; subst h
        simp_all [SlotInv, DispPc.slotInHand, countWorkers_append, WorkerPc.alive]
      · split at h
        · split at h <;> (injection h with h; subst h; simp_all [SlotInv, DispPc.slotInHand])
        · simp at h
      · simp at h
    | worker i resp elapsed =>
      simp only at h
      unfold work at h
      obtain ⟨hi1, hi2, hi3⟩ := hinv
      split at h
      · simp at h
      · rename_i req hw
        have hc := countWorkers_set WorkerPc.alive s.workers i _
          (WorkerPc.sendingOut (outcomeOf resp elapsed)) hw
        injection h with h; subst h
        simp [WorkerPc.alive] at hc
        refine ⟨?_, hi2, hi3⟩
        simp only
        omega
      · rename_i res hw
        have hc := countWorkers_set WorkerPc.alive s.workers i _ WorkerPc.afterSend hw
        simp [WorkerPc.alive] at hc
        split at h
        · injection h with h; subst h
          exact ⟨hi1, hi2, hi3⟩
        · split at h
          · injection h with h; subst h
            refine ⟨?_, hi2, hi3⟩
            simp only
            omega
          · split at h
            · injection h with h; subst h
              refine ⟨?_, hi2, hi3⟩
              simp only
              omega
            · simp at h
      · rename_i hw
        have hc := countWorkers_set WorkerPc.alive s.workers i _ WorkerPc.releasing hw
        simp [WorkerPc.alive] at hc
        split at h
        · injection h with h; subst h
          exact ⟨hi1, hi2, hi3⟩
        · injection h with h; subst h
          refine ⟨?_, hi2, hi3⟩
          simp only
          omega
      · rename_i hw
        have hc := countWorkers_set WorkerPc.alive s.workers i _ WorkerPc.exited hw
        simp [WorkerPc.alive] at hc
        split at h
        · injection h with h; subst h
          refine ⟨?_, ?_, hi3⟩
          · simp only
            omega
          · simp only
            omega
        · split at h
          · rename_i req hd
            split at h
            · injection h with h; subst h
              refine ⟨?_, hi2, ?_⟩
              · simp only [hd, DispPc.slotInHand] at hi1 ⊢
                omega
              · intro n hn
                have := hi3 n hn
                simp [hd] at this
            · simp at h
          · simp at h
      · simp at h

theorem exec_slots (env : Env) (config : Configuration) (schedule : List Action)
    (s t : State) (h : exec env config s schedule = some t) (hinv : SlotInv config s) :
    SlotInv config t := by
  induction schedule generalizing s with
  | nil =>
    simp [exec] at h
    subst h
    exact hinv
  | cons a rest ih =>
    simp only [exec] at h
    split at h
    · simp at h
    · rename_i s1 hs1
      exact ih s1 h (step_slots env config s s1 a hs1 hinv)

theorem NewStrest_slots (config : Configuration) (s0 : State)
    (h : NewStrest config = some s0) : SlotInv config s0 := by
  unfold NewStrest at h
  split at h
  · simp at h
  · injection h with h; subst h
    simp [SlotInv, countWorkers, DispPc.slotInHand]
/-! ## The pipeline: the flow of outcomes -/

theorem recorded_consume_eq (r : result) (res : RequestResult) :
    (consume r res).recorded = r.recorded + 1 := by
  simp only [result.recorded]
  exact recorded_consume r res

theorem recorded_processOut_fresh (outs : List RequestResult) :
    (processOut result.fresh outs).recorded = outs.length := by
  simp only [result.recorded]
  rw [recorded_processOut]
  simp [result.fresh, mapTotal]

theorem consume_processOut (r : result) (outs : List RequestResult) (res : RequestResult) :
    consume (processOut r outs) res = processOut r (outs ++ [res]) := by
  rw [processOut_append]
  rfl

theorem expected_succ_of_ok (env : Env) (config : Configuration) (n : Nat) (req : Request)
    (h : getRequest env config = Built.ok req) :
    expected env config (n + 1) = expected env config n + 1 := by
  simp [expected, buildFails, h]

theorem expected_succ_of_err (env : Env) (config : Configuration) (n : Nat) (e : String)
    (h : getRequest env config = Built.err e) :
    expected env config (n + 1) = expected env config n := by
  simp [expected, buildFails, h]

theorem expected_zero (env : Env) (config : Configuration) : expected env config 0 = 0 := by
  simp [expected]

theorem stepMain_flow (env : Env) (config : Configuration) (s t : State)
    (h : stepMain env config s = some t) (hf : FlowInv env config s) :
    RunInv env config t := by
  have hbal := hf.balance
  unfold stepMain at h
  split at h
  · -- warm-up iteration
    rename_i left hm
    have key : (t.panicked = false → t = { s with main := MainPc.warmup left }) := by
      split at h <;> (injection h with h; subst h; simp)
    refine ⟨fun hp => ?_, ?_⟩
    · have ht := key hp
      subst ht
      have hd := hf.notStarted _ hm
      exact
        { balance := by simpa [hm, MainPc.left, MainPc.holding] using hbal
          waitGroup := hf.waitGroup
          outClosed := hf.outClosed
          dispDone := hf.dispDone
          dispPast := hf.dispPast
          inClosed := fun hc => by
            have := hf.inClosed hc
            simp [hm] at this
          folded := hf.folded
          notStarted := fun n _ => hd }
    · intro r hr2
      split at h <;> (injection h with h; subst h; simp [hm] at hr2)
  · -- end of the warm-up: the channels are made and the dispatcher started
    rename_i hm
    have hd := hf.notStarted _ hm
    have hw := hf.waitGroup
    have hfold := hf.folded
    split at h
    · injection h with h; subst h
      exact ⟨fun hp => by simp at hp, fun r hr2 => by simp [hm] at hr2⟩
    · injection h with h; subst h
      refine ⟨fun _ => ⟨?_, hw, ?_, ?_, ?_, ?_, hfold, ?_⟩, fun r hr2 => by simp at hr2⟩
      · simpa [hm, hd, MainPc.left, MainPc.holding, DispPc.holding] using hbal
      · intro hc
        have := hf.outClosed hc
        simp [hd] at this
      · intro hc
        simp at hc
      · intro hc
        simp at hc
      · intro hc
        have := hf.inClosed hc
        simp [hm] at this
      · intro n hn
        simp at hn
  · -- an iteration of the measured loop: the build
    rename_i left hm
    have hw := hf.waitGroup
    have hfold := hf.folded
    have hclosed : s.inChanClosed = true → False := fun hc => by
      have := hf.inClosed hc
      simp [hm] at this
    split at h
    · injection h with h; subst h
      exact ⟨fun hp => by simp at hp, fun r hr2 => by simp [hm] at hr2⟩
    · rename_i e hget
      have he := expected_succ_of_err env config left e hget
      injection h with h; subst h
      refine ⟨fun _ => ⟨?_, hw, hf.outClosed, hf.dispDone, hf.dispPast, ?_, hfold, ?_⟩,
        fun r hr2 => by simp at hr2⟩
      · simp only [hm, MainPc.left, MainPc.holding, Nat.succ_eq_add_one] at hbal ⊢
        omega
      · intro hc
        exact absurd (hclosed hc) id
      · intro n hn
        simp at hn
    · rename_i req hget
      have he := expected_succ_of_ok env config left req hget
      injection h with h; subst h
      refine ⟨fun _ => ⟨?_, hw, hf.outClosed, hf.dispDone, hf.dispPast, ?_, hfold, ?_⟩,
        fun r hr2 => by simp at hr2⟩
      · simp only [hm, MainPc.left, MainPc.holding, Nat.succ_eq_add_one] at hbal ⊢
        omega
      · intro hc
        exact absurd (hclosed hc) id
      · intro n hn
        simp at hn
  · -- the end of the measured loop: `close(inChan)`
    rename_i hm
    have hw := hf.waitGroup
    have hfold := hf.folded
    have hclosed : s.inChanClosed = true → False := fun hc => by
      have := hf.inClosed hc
      simp [hm] at this
    split at h
    · injection h with h; subst h
      exact ⟨fun hp => by simp at hp, fun r hr2 => by simp [hm] at hr2⟩
    · injection h with h; subst h
      refine ⟨fun _ => ⟨?_, hw, hf.outClosed, hf.dispDone, ?_, ?_, hfold, ?_⟩,
        fun r hr2 => by simp at hr2⟩
      · simp only [hm, MainPc.left, MainPc.holding] at hbal ⊢
        omega
      · intro hd
        have := hf.dispPast hd
        exact absurd (hclosed this.1) id
      · intro _
        exact Or.inl rfl
      · intro n hn
        simp at hn
  · -- `inChan <- req`
    rename_i req left hm
    have hw := hf.waitGroup
    have hfold := hf.folded
    have hclosed : s.inChanClosed = true → False := fun hc => by
      have := hf.inClosed hc
      simp [hm] at this
    split at h
    · injection h with h; subst h
      exact ⟨fun hp => by simp at hp, fun r hr2 => by simp [hm] at hr2⟩
    · split at h
      · injection h with h; subst h
        refine ⟨fun _ => ⟨?_, hw, hf.outClosed, hf.dispDone, ?_, ?_, hfold, ?_⟩,
          fun r hr2 => by simp at hr2⟩
        · simp only [hm, MainPc.left, MainPc.holding, List.length_append,
            List.length_singleton] at hbal ⊢
          push_cast
          omega
        · intro hd
          have := hf.dispPast hd
          exact absurd (hclosed this.1) id
        · intro hc
          exact absurd (hclosed hc) id
        · intro n hn
          simp at hn
      · split at h
        · rename_i hc
          obtain ⟨_, hidle⟩ := hc
          injection h with h; subst h
          refine ⟨fun _ => ⟨?_, hw, ?_, ?_, ?_, ?_, hfold, ?_⟩,
            fun r hr2 => by simp at hr2⟩
          · simp only [hm, hidle, MainPc.left, MainPc.holding, DispPc.holding] at hbal ⊢
            omega
          · intro hc
            have := hf.outClosed hc
            simp [hidle] at this
          · intro hd
            simp at hd
          · intro hd
            simp at hd
          · intro hc
            exact absurd (hclosed hc) id
          · intro n hn
            simp at hn
        · simp at h
  · -- `processOut`: the receive of `range outChan`
    rename_i hm
    have hw := hf.waitGroup
    split at h
    · rename_i res rest hout
      injection h with h; subst h
      refine ⟨fun _ => ⟨?_, hw, hf.outClosed, hf.dispDone, hf.dispPast, ?_, ?_, ?_⟩,
        fun r hr2 => by simp [hm] at hr2⟩
      · have hrec := recorded_consume_eq s.result res
        simp only [hm, hout, MainPc.left, MainPc.holding, List.length_cons] at hbal ⊢
        push_cast at hbal
        omega
      · intro _
        exact Or.inl hm
      · obtain ⟨outs, houts⟩ := hf.folded
        exact ⟨outs ++ [res], by simp only [houts]; exact consume_processOut _ _ _⟩
      · intro n hn
        simp [hm] at hn
    · rename_i hout
      split at h
      · rename_i hclosed
        injection h with h; subst h
        have hdone := hf.outClosed hclosed
        have hwg := hf.dispDone hdone
        have hin := (hf.dispPast (Or.inr hdone)).2
        have hfl := inFlight_le_waitedFor s.workers
        rw [← hw, hwg] at hfl
        obtain ⟨outs, houts⟩ := hf.folded
        have hrec := recorded_processOut_fresh outs
        rw [← houts] at hrec
        have hlen : (outs.length : Int) =
            (expected env config (rangeCount config.Requests) : Int) := by
          simp only [hm, hout, hin, hdone, MainPc.left, MainPc.holding, DispPc.holding,
            List.length_nil, expected_zero] at hbal
          omega
        refine ⟨fun _ => ⟨?_, hw, hf.outClosed, hf.dispDone, hf.dispPast, ?_, hf.folded, ?_⟩, ?_⟩
        · simp only [hm, MainPc.left, MainPc.holding] at hbal ⊢
          exact hbal
        · intro _
          exact Or.inr ⟨_, rfl⟩
        · intro n hn
          simp at hn
        · intro r hr2
          simp only [MainPc.returned.injEq] at hr2
          subst hr2
          exact ⟨outs, by rw [houts], by exact_mod_cast hlen⟩
      · simp at h
  · simp at h

theorem stepDispatcher_flow (env : Env) (config : Configuration) (s t : State)
    (h : stepDispatcher config s = some t) (hf : FlowInv env config s)
    (hr : ReturnedInv env config s) : RunInv env config t := by
  have hbal := hf.balance
  have hw := hf.waitGroup
  have hfold := hf.folded
  unfold stepDispatcher at h
  split at h
  · simp at h
  · -- the receive of `range inChan`
    rename_i hd
    have hns : ∀ n, s.main = MainPc.warmup n → False := fun n hn => by
      have := hf.notStarted n hn
      simp [hd] at this
    have hoc : s.outChanClosed = true → False := fun hc => by
      have := hf.outClosed hc
      simp [hd] at this
    split at h
    · rename_i req rest hin
      injection h with h; subst h
      refine ⟨fun _ => ⟨?_, hw, ?_, ?_, ?_, hf.inClosed, hfold, ?_⟩, hr⟩
      · simp only [hd, hin, DispPc.holding, List.length_cons] at hbal ⊢
        push_cast at hbal
        omega
      · intro hc
        exact absurd (hoc hc) id
      · intro hc
        simp at hc
      · intro hc
        simp at hc
      · intro n hn
        exact absurd (hns n hn) id
    · rename_i hin
      split at h
      · rename_i hclosed
        injection h with h; subst h
        refine ⟨fun _ => ⟨?_, hw, ?_, ?_, ?_, hf.inClosed, hfold, ?_⟩, hr⟩
        · simp only [hd, DispPc.holding] at hbal ⊢
          exact hbal
        · intro hc
          exact absurd (hoc hc) id
        · intro hc
          simp at hc
        · intro _
          exact ⟨hclosed, hin⟩
        · intro n hn
          exact absurd (hns n hn) id
      · simp at h
  · -- `s.workerChan <- struct`
    rename_i req hd
    split at h
    · injection h with h; subst h
      refine ⟨fun _ => ⟨?_, hw, ?_, ?_, ?_, hf.inClosed, hfold, ?_⟩, hr⟩
      · simp only [hd, DispPc.holding] at hbal ⊢
        exact hbal
      · intro hc
        have := hf.outClosed hc
        simp [hd] at this
      · intro hc
        simp at hc
      · intro hc
        simp at hc
      · intro n hn
        have := hf.notStarted n hn
        simp [hd] at this
    · simp at h
  · -- `wg.Add(1); go s.work(...)`
    rename_i req hd
    injection h with h; subst h
    refine ⟨fun _ => ⟨?_, ?_, ?_, ?_, ?_, hf.inClosed, hfold, ?_⟩, hr⟩
    · simp only [hd, DispPc.holding, countWorkers_append, WorkerPc.inFlight] at hbal ⊢
      push_cast
      omega
    · simp only [countWorkers_append, WorkerPc.waitedFor]
      omega
    · intro hc
      have := hf.outClosed hc
      simp [hd] at this
    · intro hc
      simp at hc
    · intro hc
      simp at hc
    · intro n hn
      have := hf.notStarted n hn
      simp [hd] at this
  · -- `wg.Wait(); close(outChan)`
    rename_i hd
    split at h
    · rename_i hwg
      split at h
      · injection h with h; subst h
        exact ⟨fun hp => by simp at hp, hr⟩
      · injection h with h; subst h
        refine ⟨fun _ => ⟨?_, hw, ?_, ?_, ?_, hf.inClosed, hfold, ?_⟩, hr⟩
        · simp only [hd, DispPc.holding] at hbal ⊢
          exact hbal
        · intro _
          rfl
        · intro _
          exact hwg
        · intro _
          exact hf.dispPast (Or.inl hd)
        · intro n hn
          have := hf.notStarted n hn
          simp [hd] at this
    · simp at h
  · simp at h

theorem work_flow (env : Env) (config : Configuration) (s t : State) (i : Nat)
    (resp : Response) (elapsed : Int)
    (h : work config s i resp elapsed = some t) (hf : FlowInv env config s)
    (hr : ReturnedInv env config s) : RunInv env config t := by
  have hbal := hf.balance
  have hw := hf.waitGroup
  have hfold := hf.folded
  unfold work at h
  split at h
  · simp at h
  · -- `client.Do(req)` returns
    rename_i req hget
    have h1 := countWorkers_set WorkerPc.inFlight s.workers i _
      (WorkerPc.sendingOut (outcomeOf resp elapsed)) hget
    have h2 := countWorkers_set WorkerPc.waitedFor s.workers i _
      (WorkerPc.sendingOut (outcomeOf resp elapsed)) hget
    simp only [WorkerPc.inFlight, WorkerPc.waitedFor] at h1 h2
    injection h with h; subst h
    refine ⟨fun _ => ⟨?_, ?_, hf.outClosed, ?_, hf.dispPast, hf.inClosed, hfold,
      hf.notStarted⟩, hr⟩
    · simp only
      omega
    · simp only
      omega
    · intro hd
      have := hf.dispDone hd
      simp only
      exact this
  · -- `outChan <- &RequestResult`
    rename_i res hget
    have h1 := countWorkers_set WorkerPc.inFlight s.workers i _ WorkerPc.afterSend hget
    have h2 := countWorkers_set WorkerPc.waitedFor s.workers i _ WorkerPc.afterSend hget
    simp only [WorkerPc.inFlight, WorkerPc.waitedFor] at h1 h2
    split at h
    · injection h with h; subst h
      exact ⟨fun hp => by simp at hp, hr⟩
    · split at h
      · injection h with h; subst h
        refine ⟨fun _ => ⟨?_, ?_, hf.outClosed, hf.dispDone, hf.dispPast, hf.inClosed, hfold,
          hf.notStarted⟩, hr⟩
        · simp only [List.length_append, List.length_singleton]
          push_cast
          omega
        · simp only
          omega
      · split at h
        · rename_i hc
          injection h with h; subst h
          have hrec := recorded_consume_eq s.result res
          refine ⟨fun _ => ⟨?_, ?_, hf.outClosed, hf.dispDone, hf.dispPast, hf.inClosed, ?_,
            hf.notStarted⟩, hr⟩
          · simp only
            omega
          · simp only
            omega
          · obtain ⟨outs, houts⟩ := hfold
            exact ⟨outs ++ [res], by simp only [houts]; exact consume_processOut _ _ _⟩
        · simp at h
  · -- `wg.Done()`
    rename_i hget
    have h1 := countWorkers_set WorkerPc.inFlight s.workers i _ WorkerPc.releasing hget
    have h2 := countWorkers_set WorkerPc.waitedFor s.workers i _ WorkerPc.releasing hget
    simp only [WorkerPc.inFlight, WorkerPc.waitedFor] at h1 h2
    split at h
    · injection h with h; subst h
      exact ⟨fun hp => by simp at hp, hr⟩
    · rename_i hwg
      injection h with h; subst h
      refine ⟨fun _ => ⟨?_, ?_, hf.outClosed, ?_, hf.dispPast, hf.inClosed, hfold,
        hf.notStarted⟩, hr⟩
      · simp only
        omega
      · simp only
        omega
      · intro hd
        exact absurd (hf.dispDone hd) hwg
  · -- `<-s.workerChan`
    rename_i hget
    have h1 := countWorkers_set WorkerPc.inFlight s.workers i _ WorkerPc.exited hget
    have h2 := countWorkers_set WorkerPc.waitedFor s.workers i _ WorkerPc.exited hget
    simp only [WorkerPc.inFlight, WorkerPc.waitedFor] at h1 h2
    split at h
    · injection h with h; subst h
      refine ⟨fun _ => ⟨?_, ?_, hf.outClosed, hf.dispDone, hf.dispPast, hf.inClosed, hfold,
        hf.notStarted⟩, hr⟩
      · simp only
        omega
      · simp only
        omega
    · split at h
      · rename_i req hd
        split at h
        · injection h with h; subst h
          refine ⟨fun _ => ⟨?_, ?_, ?_, ?_, ?_, hf.inClosed, hfold, ?_⟩, hr⟩
          · simp only [hd, DispPc.holding] at hbal ⊢
            omega
          · simp only
            omega
          · intro hc
            have := hf.outClosed hc
            simp [hd] at this
          · intro hc
            simp at hc
          · intro hc
            simp at hc
          · intro n hn
            have := hf.notStarted n hn
            simp [hd] at this
        · simp at h
      · simp at h
  · simp at h

theorem step_flow (env : Env) (config : Configuration) (s t : State) (a : Action)
    (h : step env config s a = some t) (hinv : RunInv env config s) :
    RunInv env config t := by
  unfold step at h
  split at h
  · simp at h
  · rename_i hp
    have hf := hinv.1 (by simpa using hp)
    cases a with
    | main => exact stepMain_flow env config s t h hf
    | dispatcher => exact stepDispatcher_flow env config s t h hf hinv.2
    | worker i resp elapsed => exact work_flow env config s t i resp elapsed h hf hinv.2

theorem exec_flow (env : Env) (config : Configuration) (schedule : List Action)
    (s t : State) (h : exec env config s schedule = some t) (hinv : RunInv env config s) :
    RunInv env config t := by
  induction schedule generalizing s with
  | nil =>
    simp [exec] at h
    subst h
    exact hinv
  | cons a rest ih =>
    simp only [exec] at h
    split at h
    · simp at h
    · rename_i s1 hs1
      exact ih s1 h (step_flow env config s s1 a hs1 hinv)

theorem NewStrest_flow (env : Env) (config : Configuration) (s0 : State)
    (h : NewStrest config = some s0) : RunInv env config s0 := by
  unfold NewStrest at h
  split at h
  · simp at h
  · injection h with h; subst h
    refine ⟨fun _ => ⟨?_, ?_, ?_, ?_, ?_, ?_, ⟨[], rfl⟩, ?_⟩, ?_⟩
    · simp [result.recorded, result.fresh, mapTotal, countWorkers, DispPc.holding,
        MainPc.holding, MainPc.left]
    · simp [countWorkers]
    · intro hc; simp at hc
    · intro hc; simp at hc
    · intro hc; simp at hc
    · intro hc; simp at hc
    · intro n _; rfl
    · intro r hr; simp at hr

/-! ## The pipeline: after the warm-up -/

theorem stepMain_started (env : Env) (config : Configuration) (s t : State)
    (h : stepMain env config s = some t) (hinv : StartedInv config s) :
    StartedInv config t := by
  unfold stepMain at h
  split at h
  · rename_i left hm
    split at h <;>
      (injection h with h; subst h; intro hw; simp_all [MainPc.isWarmup])
  · rename_i hm
    split at h
    · injection h with h; subst h; intro hw; simp_all [MainPc.isWarmup]
    · rename_i hreq
      injection h with h; subst h
      intro _
      omega
  · rename_i left hm
    have hreq := hinv (by simp [hm, MainPc.isWarmup])
    split at h <;> (injection h with h; subst h; intro _; exact hreq)
  · rename_i hm
    have hreq := hinv (by simp [hm, MainPc.isWarmup])
    split at h <;> (injection h with h; subst h; intro _; exact hreq)
  · rename_i req left hm
    have hreq := hinv (by simp [hm, MainPc.isWarmup])
    split at h
    · injection h with h; subst h; intro _; exact hreq
    · split at h
      · injection h with h; subst h; intro _; exact hreq
      · split at h
        · injection h with h; subst h; intro _; exact hreq
        · simp at h
  · rename_i hm
    have hreq := hinv (by simp [hm, MainPc.isWarmup])
    split at h
    · injection h with h; subst h; intro _; exact hreq
    · split at h
      · injection h with h; subst h; intro _; exact hreq
      · simp at h
  · simp at h

theorem stepDispatcher_main (config : Configuration) (s t : State)
    (h : stepDispatcher config s = some t) : t.main = s.main := by
  unfold stepDispatcher at h
  split at h
  · simp at h
  · split at h
    · injection h with h; subst h; rfl
    · split at h
      · injection h with h; subst h; rfl
      · simp at h
  · split at h
    · injection h with h; subst h; rfl
    · simp at h
  · injection h with h; subst h; rfl
  · split at h
    · split at h <;> (injection h with h; subst h; rfl)
    · simp at h
  · simp at h

theorem work_main (config : Configuration) (s t : State) (i : Nat) (resp : Response)
    (elapsed : Int) (h : work config s i resp elapsed = some t) : t.main = s.main := by
  unfold work at h
  split at h
  · simp at h
  · injection h with h; subst h; rfl
  · split at h
    · injection h with h; subst h; rfl
    · split at h
      · injection h with h; subst h; rfl
      · split at h
        · injection h with h; subst h; rfl
        · simp at h
  · split at h <;> (injection h with h; subst h; rfl)
  · split at h
    · injection h with h; subst h; rfl
    · split at h
      · split at h
        · injection h with h; subst h; rfl
        · simp at h
      · simp at h
  · simp at h

theorem step_started (env : Env) (config : Configuration) (s t : State) (a : Action)
    (h : step env config s a = some t) (hinv : StartedInv config s) :
    StartedInv config t := by
  unfold step at h
  split at h
  · simp at h
  · cases a with
    | main => exact stepMain_started env config s t h hinv
    | dispatcher =>
      have := stepDispatcher_main config s t h
      simp only [StartedInv, this]
      exact hinv
    | worker i resp elapsed =>
      have := work_main config s t i resp elapsed h
      simp only [StartedInv, this]
      exact hinv

theorem exec_started (env : Env) (config : Configuration) (schedule : List Action)
    (s t : State) (h : exec env config s schedule = some t) (hinv : StartedInv config s) :
    StartedInv config t := by
  induction schedule generalizing s with
  | nil =>
    simp [exec] at h
    subst h
    exact hinv
  | cons a rest ih =>
    simp only [exec] at h
    split at h
    · simp at h
    · rename_i s1 hs1
      exact ih s1 h (step_started env config s s1 a hs1 hinv)

theorem NewStrest_started (config : Configuration) (s0 : State)
    (h : NewStrest config = some s0) : StartedInv config s0 := by
  unfold NewStrest at h
  split at h
  · simp at h
  · injection h with h; subst h
    intro hw
    simp [MainPc.isWarmup] at hw

theorem NewStrest_concurrency (config : Configuration) (s0 : State)
    (h : NewStrest config = some s0) : 0 ≤ config.Concurrency := by
  unfold NewStrest at h
  split at h
  · simp at h
  · omega

theorem buildFailures_eq (env : Env) (config : Configuration) :
    buildFailures env config =
      if buildFails env config then rangeCount config.Requests else 0 := by
  unfold buildFailures
  cases buildFails env config <;> simp

theorem expected_eq_sub (env : Env) (config : Configuration) (h : 0 ≤ config.Requests) :
    (expected env config (rangeCount config.Requests) : Int) =
      config.Requests - buildFailures env config := by
  rw [buildFailures_eq]
  unfold expected rangeCount
  cases buildFails env config <;> simp <;> omega

/-- What every run that returns has computed. -/
theorem Run_returned (env : Env) (config : Configuration) (schedule : List Action)
    (s : State) (r : Result) (h : Run env config schedule = some s)
    (hr : s.main = MainPc.returned r) :
    0 ≤ config.Requests ∧
    ∃ outs : List RequestResult,
      r = summary (processOut result.fresh outs) ∧
      (outs.length : Int) = config.Requests - buildFailures env config := by
  unfold Run at h
  split at h
  · simp at h
  · rename_i s0 hs0
    have hflow := exec_flow env config schedule s0 s h (NewStrest_flow env config s0 hs0)
    have hstart := exec_started env config schedule s0 s h (NewStrest_started config s0 hs0)
    have hreq : 0 ≤ config.Requests := hstart (by simp [hr, MainPc.isWarmup])
    obtain ⟨outs, h1, h2⟩ := hflow.2 r hr
    refine ⟨hreq, outs, h1, ?_⟩
    rw [← expected_eq_sub env config hreq, h2]

theorem summary_total (outs : List RequestResult) :
    (summary (processOut result.fresh outs)).total = outs.length := by
  have := recorded_processOut_fresh outs
  simpa [Result.total, summary, result.recorded] using this

/-! ## The pipeline: a run that returns -/

theorem exec_append (env : Env) (config : Configuration) (xs ys : List Action) (s : State) :
    exec env config s (xs ++ ys) =
      match exec env config s xs with
      | none => none
      | some t => exec env config t ys := by
  induction xs generalizing s with
  | nil => simp [exec]
  | cons a xs ih =>
    simp only [List.cons_append, exec]
    cases step env config s a with
    | none => rfl
    | some s1 => exact ih s1

theorem exec_append_of (env : Env) (config : Configuration) (xs ys : List Action)
    (s t : State) (h : exec env config s xs = some t) :
    exec env config s (xs ++ ys) = exec env config t ys := by
  rw [exec_append, h]

theorem getElem?_append_length (ws : List WorkerPc) (w : WorkerPc) :
    (ws ++ [w])[ws.length]? = some w := by
  simp

theorem set_append_length (ws : List WorkerPc) (w v : WorkerPc) :
    (ws ++ [w]).set ws.length v = ws ++ [v] := by
  induction ws with
  | nil => rfl
  | cons x ws ih => simp [ih]

theorem exec_warmup (env : Env) (config : Configuration) (n : Nat)
    (h : 0 < n → ∀ msg, getRequest env config ≠ Built.panic msg) :
    exec env config (warmupState n) (List.replicate n Action.main) = some (warmupState 0) := by
  induction n with
  | zero => rfl
  | succ n ih =>
    have hnp := h (Nat.succ_pos n)
    have hstep : step env config (warmupState (n + 1)) Action.main = some (warmupState n) := by
      cases hg : getRequest env config with
      | panic msg => exact absurd hg (hnp msg)
      | err e => simp [step, stepMain, warmupState, hg]
      | ok req => simp [step, stepMain, warmupState, hg]
    simp only [List.replicate_succ, exec, hstep]
    exact ih (fun _ => hnp)

theorem step_start (env : Env) (config : Configuration) (h : 0 ≤ config.Requests) :
    step env config (warmupState 0) Action.main =
      some (quiescent (rangeCount config.Requests) [] []) := by
  have : ¬ config.Requests < 0 := by omega
  simp [step, stepMain, warmupState, quiescent, this]

theorem exec_iteration (env : Env) (config : Configuration) (req : Request)
    (hreq : getRequest env config = Built.ok req) (hc : 1 ≤ rangeCount config.Concurrency)
    (left : Nat) (ws : List WorkerPc) (outs : List RequestResult)
    (hout : outs.length < rangeCount config.Requests) (resp : Response) (elapsed : Int) :
    exec env config (quiescent (left + 1) ws outs) (iterationSchedule ws.length resp elapsed) =
      some (quiescent left (ws ++ [WorkerPc.exited]) (outs ++ [outcomeOf resp elapsed])) := by
  have hc0 : 0 < rangeCount config.Concurrency := hc
  simp [iterationSchedule, exec, step, stepMain, stepDispatcher, work, quiescent, hreq,
    hc0, hout, set_append_length]

theorem exec_iterations (env : Env) (config : Configuration) (req : Request)
    (hreq : getRequest env config = Built.ok req) (hc : 1 ≤ rangeCount config.Concurrency)
    (answers : List (Response × Int)) (ws : List WorkerPc) (outs : List RequestResult)
    (hout : outs.length + answers.length ≤ rangeCount config.Requests) :
    exec env config (quiescent answers.length ws outs) (iterationsSchedule ws.length answers) =
      some (quiescent 0 (ws ++ List.replicate answers.length WorkerPc.exited)
        (outs ++ outcomes answers)) := by
  induction answers generalizing ws outs with
  | nil => simp [iterationsSchedule, exec, outcomes]
  | cons a rest ih =>
    obtain ⟨resp, elapsed⟩ := a
    simp only [List.length_cons] at hout
    have hlt : outs.length < rangeCount config.Requests := by omega
    have h1 := exec_iteration env config req hreq hc rest.length ws outs hlt resp elapsed
    simp only [iterationsSchedule, List.length_cons]
    rw [exec_append_of env config _ _ _ _ h1]
    have h2 := ih (ws ++ [WorkerPc.exited]) (outs ++ [outcomeOf resp elapsed])
      (by simp only [List.length_append, List.length_singleton]; omega)
    simp only [List.length_append, List.length_singleton] at h2
    rw [h2]
    simp [outcomes, List.replicate_succ]

theorem exec_failing (env : Env) (config : Configuration) (hfail : buildFails env config = true)
    (n : Nat) :
    exec env config (quiescent n [] []) (List.replicate n Action.main) =
      some (quiescent 0 [] []) := by
  induction n with
  | zero => rfl
  | succ n ih =>
    have hstep : step env config (quiescent (n + 1) [] []) Action.main =
        some (quiescent n [] []) := by
      cases hg : getRequest env config with
      | panic msg => simp [buildFails, hg] at hfail
      | err e => simp [step, stepMain, quiescent, hg]
      | ok req => simp [buildFails, hg] at hfail
    simp only [List.replicate_succ, exec, hstep]
    exact ih

theorem exec_processing (env : Env) (config : Configuration) (ws : List WorkerPc)
    (outs : List RequestResult) (r : result) :
    exec env config (draining ws outs r) (List.replicate outs.length Action.main) =
      some (draining ws [] (processOut r outs)) := by
  induction outs generalizing r with
  | nil => rfl
  | cons o outs ih =>
    have hstep : step env config (draining ws (o :: outs) r) Action.main =
        some (draining ws outs (consume r o)) := by
      simp [step, stepMain, draining]
    simp only [List.length_cons, List.replicate_succ, exec, hstep]
    rw [ih]
    rfl

theorem exec_drain (env : Env) (config : Configuration) (ws : List WorkerPc)
    (outs : List RequestResult) :
    ∃ s, exec env config (quiescent 0 ws outs) (drainSchedule outs.length) = some s ∧
      s.main = MainPc.returned (summary (processOut result.fresh outs)) := by
  have h1 : exec env config (quiescent 0 ws outs)
      [Action.main, Action.dispatcher, Action.dispatcher] =
      some (draining ws outs result.fresh) := by
    simp [exec, step, stepMain, stepDispatcher, quiescent, draining]
  have h2 := exec_processing env config ws outs result.fresh
  unfold drainSchedule
  rw [List.append_assoc, exec_append_of env config _ _ _ _ h1,
    exec_append_of env config _ _ _ _ h2]
  refine ⟨{ draining ws [] (processOut result.fresh outs) with
    main := MainPc.returned (summary (processOut result.fresh outs)) }, ?_, rfl⟩
  simp [exec, step, stepMain, draining]

/-- The run under `fullSchedule` returns, with the summary of the outcomes of
the given answers. -/
theorem Run_returns (env : Env) (config : Configuration) (answers : List (Response × Int))
    (hC : 0 ≤ config.Concurrency) (hR : 0 ≤ config.Requests)
    (hpanic : 0 < config.Warmup ∨ 0 < config.Requests →
      ∀ msg, getRequest env config ≠ Built.panic msg)
    (hlen : answers.length = expected env config (rangeCount config.Requests))
    (hslot : answers ≠ [] → 1 ≤ config.Concurrency) :
    ∃ s, Run env config (fullSchedule env config answers) = some s ∧
      s.main = MainPc.returned (summary (processOut result.fresh (outcomes answers))) := by
  have hnew : NewStrest config = some (warmupState (rangeCount config.Warmup)) := by
    have : ¬ config.Concurrency < 0 := by omega
    simp [NewStrest, warmupState, this]
  have hwarm := exec_warmup env config (rangeCount config.Warmup) (fun hpos => by
    apply hpanic
    left
    unfold rangeCount at hpos
    omega)
  have hstart : exec env config (warmupState 0) [Action.main] =
      some (quiescent (rangeCount config.Requests) [] []) := by
    simp only [exec, step_start env config hR]
  unfold Run
  rw [hnew]
  simp only
  unfold fullSchedule
  by_cases hfail : buildFails env config = true
  · have hnil : answers = [] := by
      have : answers.length = 0 := by simp [hlen, expected, hfail]
      exact List.length_eq_zero.mp this
    subst hnil
    simp only [hfail, if_true, failingSchedule]
    rw [List.append_assoc, List.append_assoc, exec_append_of env config _ _ _ _ hwarm,
      exec_append_of env config _ _ _ _ hstart,
      exec_append_of env config _ _ _ _
        (exec_failing env config hfail (rangeCount config.Requests))]
    exact exec_drain env config [] []
  · have hlen2 : answers.length = rangeCount config.Requests := by
      simpa [expected, hfail] using hlen
    rw [if_neg hfail]
    simp only [sequentialSchedule]
    rw [List.append_assoc, List.append_assoc, exec_append_of env config _ _ _ _ hwarm,
      exec_append_of env config _ _ _ _ hstart]
    cases hans : answers with
    | nil =>
      have hz : rangeCount config.Requests = 0 := by rw [← hlen2, hans]; rfl
      rw [hz]
      simp only [iterationsSchedule, List.nil_append, List.length_nil]
      exact exec_drain env config [] []
    | cons a rest =>
      have hne : answers ≠ [] := by simp [hans]
      have hc1 := hslot hne
      have hpos : 0 < rangeCount config.Requests := by
        rw [← hlen2, hans]; simp
      have hnp := hpanic (Or.inr (by unfold rangeCount at hpos; omega))
      obtain ⟨req, hreq⟩ : ∃ req, getRequest env config = Built.ok req := by
        cases hg : getRequest env config with
        | panic msg => exact absurd hg (hnp msg)
        | err e => simp [buildFails, hg] at hfail
        | ok req => exact ⟨req, rfl⟩
      have hcc : 1 ≤ rangeCount config.Concurrency := by unfold rangeCount; omega
      have hit := exec_iterations env config req hreq hcc answers [] []
        (by simp [hlen2])
      rw [← hans, ← hlen2]
      simp only [List.length_nil] at hit
      rw [exec_append_of env config _ _ _ _ hit]
      simp only [List.nil_append]
      have hd := exec_drain env config (List.replicate answers.length WorkerPc.exited)
        (outcomes answers)
      simpa [outcomes] using hd

/-! ## Header names: letter case -/

theorem char_of_isUpper (c : Char) (h : c.isUpper = true) :
    ∃ n, 65 ≤ n ∧ n ≤ 90 ∧ c = Char.ofNat n := by
  refine ⟨c.toNat, ?_, ?_, (Char.ofNat_toNat c).symm⟩
  · simp [Char.isUpper] at h
    exact h.1
  · simp [Char.isUpper] at h
    exact h.2

theorem char_of_isLower (c : Char) (h : c.isLower = true) :
    ∃ n, 97 ≤ n ∧ n ≤ 122 ∧ c = Char.ofNat n := by
  refine ⟨c.toNat, ?_, ?_, (Char.ofNat_toNat c).symm⟩
  · simp [Char.isLower] at h
    exact h.1
  · simp [Char.isLower] at h
    exact h.2

theorem toLower_of_not_isUpper (c : Char) (h : c.isUpper = false) : c.toLower = c := by
  have hn : ¬ (c.toNat ≥ 65 ∧ c.toNat ≤ 90) := by
    intro hc
    have : c.isUpper = true := by
      simp [Char.isUpper]
      exact hc
    simp [h] at this
  simp only [Char.toLower]
  rw [if_neg hn]

set_option maxRecDepth 4000 in
theorem upper_facts (n : Nat) (h1 : 65 ≤ n) (h2 : n ≤ 90) :
    (∀ u, canonChar u (Char.ofNat n).toLower = canonChar u (Char.ofNat n)) ∧
    (∀ u, (canonChar u (Char.ofNat n)).toLower = (Char.ofNat n).toLower) ∧
    validHeaderFieldByte (Char.ofNat n).toLower = validHeaderFieldByte (Char.ofNat n) := by
  interval_cases n <;> decide

set_option maxRecDepth 4000 in
theorem lower_facts (n : Nat) (h1 : 97 ≤ n) (h2 : n ≤ 122) :
    ∀ u, (canonChar u (Char.ofNat n)).toLower = (Char.ofNat n).toLower := by
  interval_cases n <;> decide

theorem canonChar_toLower (u : Bool) (c : Char) :
    canonChar u c.toLower = canonChar u c := by
  cases h : c.isUpper with
  | true =>
    obtain ⟨n, h1, h2, rfl⟩ := char_of_isUpper c h
    exact (upper_facts n h1 h2).1 u
  | false => rw [toLower_of_not_isUpper c h]

theorem validHeaderFieldByte_toLower (c : Char) :
    validHeaderFieldByte c.toLower = validHeaderFieldByte c := by
  cases h : c.isUpper with
  | true =>
    obtain ⟨n, h1, h2, rfl⟩ := char_of_isUpper c h
    exact (upper_facts n h1 h2).2.2
  | false => rw [toLower_of_not_isUpper c h]

theorem toLower_canonChar (u : Bool) (c : Char) :
    (canonChar u c).toLower = c.toLower := by
  cases h : c.isUpper with
  | true =>
    obtain ⟨n, h1, h2, rfl⟩ := char_of_isUpper c h
    exact (upper_facts n h1 h2).2.1 u
  | false =>
    cases h2 : c.isLower with
    | true =>
      obtain ⟨n, h3, h4, rfl⟩ := char_of_isLower c h2
      exact lower_facts n h3 h4 u
    | false => simp [canonChar, h, h2]

theorem canonChars_map_toLower (cs : List Char) (u : Bool) :
    canonChars u (cs.map Char.toLower) = canonChars u cs := by
  induction cs generalizing u with
  | nil => rfl
  | cons c cs ih =>
    simp only [List.map_cons, canonChars, canonChar_toLower, ih]

theorem map_toLower_canonChars (cs : List Char) (u : Bool) :
    (canonChars u cs).map Char.toLower = cs.map Char.toLower := by
  induction cs generalizing u with
  | nil => rfl
  | cons c cs ih =>
    simp only [List.map_cons, canonChars, toLower_canonChar, ih]

theorem all_valid_map_toLower (cs : List Char) :
    (cs.map Char.toLower).all validHeaderFieldByte = cs.all validHeaderFieldByte := by
  induction cs with
  | nil => rfl
  | cons c cs ih =>
    simp only [List.map_cons, List.all_cons, validHeaderFieldByte_toLower, ih]

/-- A canonical key that is `content-type` in some letter case is `Content-Type`. -/
theorem canonical_content_type (name : String)
    (h : (canonicalMIMEHeaderKey name).data.map Char.toLower = "content-type".data) :
    canonicalMIMEHeaderKey name = "Content-Type" := by
  unfold canonicalMIMEHeaderKey at h ⊢
  by_cases hv : name.data.all validHeaderFieldByte = true
  · rw [if_pos hv] at h ⊢
    simp only [map_toLower_canonChars] at h
    rw [← canonChars_map_toLower, h]
    decide
  · rw [if_neg hv] at h
    rw [← all_valid_map_toLower, h] at hv
    exact absurd (by decide) hv

/-! ## Header maps -/

theorem headerPut_keys (h : Header) (key : String) (vs : List String) :
    (headerPut h key vs).map Prod.fst =
      if key ∈ h.map Prod.fst then h.map Prod.fst else h.map Prod.fst ++ [key] := by
  induction h with
  | nil => simp [headerPut]
  | cons p h ih =>
    obtain ⟨k, old⟩ := p
    by_cases hk : k = key
    · simp [headerPut, hk]
    · have hk2 : ¬ key = k := fun e => hk e.symm
      by_cases hm : key ∈ h.map Prod.fst
      · simp only [headerPut, hk, if_false, List.map_cons, ih, if_pos hm]
        simp [hm]
      · simp only [headerPut, hk, if_false, List.map_cons, ih, if_neg hm]
        simp [hk2, hm]

theorem headerPut_wellFormed (h : Header) (name value : String) (hw : h.WellFormed) :
    (h.Set name value).WellFormed := by
  obtain ⟨hnd, hcanon⟩ := hw
  unfold Header.Set Header.WellFormed
  rw [headerPut_keys]
  by_cases hm : canonicalMIMEHeaderKey name ∈ h.map Prod.fst
  · rw [if_pos hm]
    exact ⟨hnd, hcanon⟩
  · rw [if_neg hm]
    constructor
    · rw [List.nodup_append]
      refine ⟨hnd, List.nodup_singleton _, ?_⟩
      intro a ha hb
      simp only [List.mem_singleton] at hb
      subst hb
      exact hm ha
    · intro k hk
      rcases List.mem_append.mp hk with hk | hk
      · exact hcanon k hk
      · simp only [List.mem_singleton] at hk
        exact ⟨name, hk⟩

theorem setHeaders_wellFormed (hs : List String) (hd hd2 : Header)
    (h : setHeaders hd hs = some hd2) (hw : hd.WellFormed) : hd2.WellFormed := by
  induction hs generalizing hd with
  | nil =>
    simp [setHeaders] at h
    subst h
    exact hw
  | cons x hs ih =>
    simp only [setHeaders] at h
    split at h
    · rename_i name value _ _
      exact ih (hd.Set name value) h (headerPut_wellFormed hd name value hw)
    · simp at h

/-- In a header map with distinct keys the entry of a key is the one looked up. -/
theorem headerLookup_of_mem (h : Header) (k : String) (vs : List String)
    (hnd : (h.map Prod.fst).Nodup) (hm : (k, vs) ∈ h) : headerLookup h k = vs := by
  induction h with
  | nil => simp at hm
  | cons p h ih =>
    obtain ⟨k1, v1⟩ := p
    simp only [List.map_cons, List.nodup_cons] at hnd
    rcases List.mem_cons.mp hm with hm | hm
    · injection hm with e1 e2
      subst e1 e2
      simp [headerLookup]
    · have hne : k1 ≠ k := by
        intro e
        subst e
        exact hnd.1 (List.mem_map.mpr ⟨(k1, vs), hm, rfl⟩)
      simp only [headerLookup, hne, if_false]
      exact ih hnd.2 hm

theorem getRequest_header (env : Env) (config : Configuration) (req : Request)
    (h : getRequest env config = Built.ok req) :
    ∃ hd : Header, hd.WellFormed ∧ req.Header = hd.Set "Content-Type" "application/json" := by
  unfold getRequest at h
  simp only at h
  split at h
  · simp at h
  · rename_i req0 hmade
    have h0 : req0.Header = [] := by
      unfold newRequest at hmade
      split at hmade
      · split at hmade
        · simp at hmade
        · injection hmade with hmade; subst hmade; rfl
      · split at hmade
        · simp at hmade
        · injection hmade with hmade; subst hmade; rfl
    split at h
    · simp at h
    · rename_i hd hset
      injection h with h
      subst h
      refine ⟨hd, ?_, rfl⟩
      apply setHeaders_wellFormed config.Headers req0.Header hd hset
      rw [h0]
      exact ⟨by simp, by simp⟩

theorem filter_key_length (h : Header) (k : String) (hnd : (h.map Prod.fst).Nodup)
    (hm : k ∈ h.map Prod.fst) : (h.filter (fun p => p.1 = k)).length = 1 := by
  induction h with
  | nil => simp at hm
  | cons p h ih =>
    obtain ⟨k1, v1⟩ := p
    simp only [List.map_cons, List.nodup_cons] at hnd
    by_cases hk : k1 = k
    · subst hk
      have hnone : h.filter (fun p => p.1 = k1) = [] := by
        rw [List.filter_eq_nil_iff]
        intro q hq hq1
        simp only [decide_eq_true_eq] at hq1
        exact hnd.1 (List.mem_map.mpr ⟨q, hq, hq1⟩)
      simp [List.filter_cons, hnone]
    · have hm2 : k ∈ h.map Prod.fst := by
        simp only [List.map_cons, List.mem_cons] at hm
        rcases hm with hm | hm
        · exact absurd hm.symm hk
        · exact hm
      simp only [List.filter_cons, hk, decide_False]
      exact ih hnd.2 hm2

theorem headerPut_mem_keys (h : Header) (key : String) (vs : List String) :
    key ∈ (headerPut h key vs).map Prod.fst := by
  rw [headerPut_keys]
  by_cases hm : key ∈ h.map Prod.fst
  · rw [if_pos hm]; exact hm
  · rw [if_neg hm]; simp

/-! ## Latency accumulator: positive samples -/

theorem wrapInt64_of_range (x : Int) (h0 : 0 ≤ x) (h1 : x < 2 ^ 63) : wrapInt64 x = x := by
  unfold wrapInt64
  have : (x + 2 ^ 63) % 2 ^ 64 = x + 2 ^ 63 := Int.emod_eq_of_lt (by omega) (by omega)
  omega

theorem sum_nonneg_of_pos (es : List Int) (h : ∀ e ∈ es, 0 < e) : 0 ≤ es.sum := by
  induction es with
  | nil => simp
  | cons e es ih =>
    have h1 := h e (by simp)
    have h2 := ih (fun x hx => h x (by simp [hx]))
    simp only [List.sum_cons]
    omega

theorem length_mul_le_sum (es : List Int) (m : Int) (h : ∀ e ∈ es, m ≤ e) :
    (es.length : Int) * m ≤ es.sum := by
  induction es with
  | nil => simp
  | cons e es ih =>
    have h1 := h e (by simp)
    have h2 := ih (fun x hx => h x (by simp [hx]))
    simp only [List.length_cons, List.sum_cons]
    push_cast
    linarith

theorem sum_le_length_mul (es : List Int) (m : Int) (h : ∀ e ∈ es, e ≤ m) :
    es.sum ≤ (es.length : Int) * m := by
  induction es with
  | nil => simp
  | cons e es ih =>
    have h1 := h e (by simp)
    have h2 := ih (fun x hx => h x (by simp [hx]))
    simp only [List.length_cons, List.sum_cons]
    push_cast
    linarith

theorem latency_fresh_add (e : Int) (h0 : 0 < e) (h1 : e < 2 ^ 63) :
    (latency.fresh.add e).Summarises [e] := by
  have hw := wrapInt64_of_range e (by omega) h1
  have hlt : ¬ e < 0 := by omega
  constructor <;> simp [latency.add, latency.fresh, hw, h0, hlt]

theorem latency_add_summarises (l : latency) (es : List Int) (e : Int)
    (hl : l.Summarises es) (hpos : ∀ x ∈ es, 0 < x) (he : 0 < e)
    (hsum : es.sum + e < 2 ^ 63) : (l.add e).Summarises (es ++ [e]) := by
  have hmin := hpos _ hl.min_mem
  have hs0 := sum_nonneg_of_pos es hpos
  have hw : wrapInt64 (es.sum + e) = es.sum + e :=
    wrapInt64_of_range _ (by omega) hsum
  have hne : ¬ l.min = 0 := by omega
  have hmin_le := hl.min_le
  have hmax_ge := hl.max_ge
  have hmin_mem := hl.min_mem
  have hmax_mem := hl.max_mem
  by_cases h1 : e < l.min <;> by_cases h2 : e > l.max
  all_goals
    constructor
    · simp [latency.add, h1, h2, hne, hl.count]
    · simp [latency.add, h1, h2, hne, hl.sum, hw]
    · simp [latency.add, h1, h2, hne, hmin_mem]
    · intro x hx
      rcases List.mem_append.mp hx with hx | hx
      · have := hmin_le x hx
        simp [latency.add, h1, h2, hne]
        omega
      · simp only [List.mem_singleton] at hx
        subst hx
        simp [latency.add, h1, h2, hne]
        try omega
    · simp [latency.add, h1, h2, hne, hmax_mem]
    · intro x hx
      rcases List.mem_append.mp hx with hx | hx
      · have := hmax_ge x hx
        simp [latency.add, h1, h2, hne]
        omega
      · simp only [List.mem_singleton] at hx
        subst hx
        simp [latency.add, h1, h2, hne]
        try omega

theorem foldl_add_summarises (rest pre : List Int) (l : latency) (hl : l.Summarises pre)
    (hpos : ∀ e ∈ pre ++ rest, 0 < e) (hsum : (pre ++ rest).sum < 2 ^ 63) :
    (rest.foldl latency.add l).Summarises (pre ++ rest) := by
  induction rest generalizing pre l with
  | nil => simpa using hl
  | cons e rest ih =>
    have hpre : ∀ x ∈ pre, 0 < x := fun x hx => hpos x (by simp [hx])
    have he : 0 < e := hpos e (by simp)
    have hrest : 0 ≤ rest.sum := sum_nonneg_of_pos rest (fun x hx => hpos x (by simp [hx]))
    have hs : pre.sum + e < 2 ^ 63 := by
      simp only [List.sum_append, List.sum_cons] at hsum
      omega
    have h1 := latency_add_summarises l pre e hl hpre he hs
    have h2 := ih (pre ++ [e]) (l.add e) h1 (by simpa using hpos) (by simpa using hsum)
    simpa using h2

/-- From the fresh accumulator, positive samples whose sum fits in 64 bits
are summarised exactly. -/
theorem foldl_add_fresh_summarises (es : List Int) (hne : es ≠ [])
    (hpos : ∀ e ∈ es, 0 < e) (hsum : es.sum < 2 ^ 63) :
    (es.foldl latency.add latency.fresh).Summarises es := by
  cases es with
  | nil => exact absurd rfl hne
  | cons e rest =>
    have he : 0 < e := hpos e (by simp)
    have hrest : 0 ≤ rest.sum := sum_nonneg_of_pos rest (fun x hx => hpos x (by simp [hx]))
    have hlt : e < 2 ^ 63 := by
      simp only [List.sum_cons] at hsum
      omega
    have h1 := latency_fresh_add e he hlt
    have h2 := foldl_add_summarises rest [e] (latency.fresh.add e) h1 (by simpa using hpos)
      (by simpa using hsum)
    simpa using h2

theorem average_bounds_of_summarises (l : latency) (es : List Int) (hl : l.Summarises es)
    (hne : es ≠ []) (hpos : ∀ e ∈ es, 0 < e) :
    l.min ≤ l.average ∧ l.average ≤ l.max := by
  have hlen : 0 < es.length := List.length_pos.mpr hne
  have hc : (0 : Int) < l.count := by rw [hl.count]; exact_mod_cast hlen
  have hs : 0 ≤ l.sum := by rw [hl.sum]; exact sum_nonneg_of_pos es hpos
  have hlo := length_mul_le_sum es l.min hl.min_le
  have hhi := sum_le_length_mul es l.max hl.max_ge
  rw [← hl.count, ← hl.sum] at hlo hhi
  have hne0 : l.count ≠ 0 := by omega
  have havg : l.average = l.sum / l.count := by
    simp only [latency.average, hne0, if_false]
    exact Int.tdiv_eq_ediv hs (by omega)
  rw [havg]
  constructor
  · apply Int.le_ediv_of_mul_le hc
    linarith
  · apply Int.ediv_le_of_le_mul hc
    linarith

theorem summarises_unique (l1 l2 : latency) (es1 es2 : List Int) (h1 : l1.Summarises es1)
    (h2 : l2.Summarises es2) (hp : es1.Perm es2) : l1 = l2 := by
  have hcount : l1.count = l2.count := by rw [h1.count, h2.count, hp.length_eq]
  have hsum : l1.sum = l2.sum := by rw [h1.sum, h2.sum, hp.sum_eq]
  have hmin : l1.min = l2.min :=
    le_antisymm (h1.min_le _ (hp.mem_iff.mpr h2.min_mem)) (h2.min_le _ (hp.mem_iff.mp h1.min_mem))
  have hmax : l1.max = l2.max :=
    le_antisymm (h2.max_ge _ (hp.mem_iff.mp h1.max_mem)) (h1.max_ge _ (hp.mem_iff.mpr h2.max_mem))
  cases l1
  cases l2
  simp_all

theorem processOut_lat (outs : List RequestResult) (r : result) :
    (processOut r outs).lat = (successDurations outs).foldl latency.add r.lat := by
  induction outs generalizing r with
  | nil => rfl
  | cons o outs ih =>
    rw [processOut_cons, ih]
    cases ho : o.Error with
    | none =>
      rw [consume_success r o ho]
      simp [successDurations, ho]
    | some e =>
      rw [consume_error r o e ho]
      simp [successDurations, ho]

theorem successDurations_perm (outs1 outs2 : List RequestResult) (hp : outs1.Perm outs2) :
    (successDurations outs1).Perm (successDurations outs2) :=
  (hp.filter _).map _

theorem processOut_errors (outs : List RequestResult) (r : result) (k : String) :
    mapGet (processOut r outs).errors k =
      mapGet r.errors k + (outs.countP (fun o => o.Error = some k) : Nat) := by
  induction outs generalizing r with
  | nil => simp [processOut]
  | cons o outs ih =>
    rw [processOut_cons, ih]
    cases ho : o.Error with
    | none =>
      rw [consume_success r o ho]
      simp [ho]
    | some e =>
      rw [consume_error r o e ho]
      by_cases hk : e = k
      · subst hk
        simp only [mapGet_mapIncr_self, List.countP_cons, ho, decide_True, if_true]
        push_cast
        ring
      · have hk2 : k ≠ e := fun h => hk h.symm
        simp [mapGet_mapIncr_ne _ _ _ hk2, List.countP_cons, ho, hk]

theorem processOut_statusCount (outs : List RequestResult) (r : result) (k : Int) :
    mapGet (processOut r outs).statusCount k =
      mapGet r.statusCount k +
        (outs.countP (fun o => o.Error = none ∧ o.StatusCode = k) : Nat) := by
  induction outs generalizing r with
  | nil => simp [processOut]
  | cons o outs ih =>
    rw [processOut_cons, ih]
    cases ho : o.Error with
    | some e =>
      rw [consume_error r o e ho]
      simp [ho]
    | none =>
      rw [consume_success r o ho]
      by_cases hk : o.StatusCode = k
      · subst hk
        simp only [mapGet_mapIncr_self, List.countP_cons, ho, true_and, decide_True, if_true]
        push_cast
        ring
      · have hk2 : k ≠ o.StatusCode := fun h => hk h.symm
        simp [mapGet_mapIncr_ne _ _ _ hk2, List.countP_cons, ho, hk]

/-- What the aggregator does guarantee when no successful call has a zero
duration: for positive durations whose sum fits in 64 bits the accumulator
holds the least and the greatest sample, `min ≤ average ≤ max`, and the
statistics are the same for every arrival order. The count maps are
independent of the arrival order in all cases. -/
theorem processOut_of_positive_durations (outs : List RequestResult)
    (hpos : ∀ e ∈ successDurations outs, 0 < e)
    (hsum : (successDurations outs).sum < 2 ^ 63) :
    (successDurations outs ≠ [] →
      (processOut result.fresh outs).lat.Summarises (successDurations outs) ∧
      (processOut result.fresh outs).lat.min ≤ (processOut result.fresh outs).lat.average ∧
      (processOut result.fresh outs).lat.average ≤ (processOut result.fresh outs).lat.max) ∧
    (∀ outs2 : List RequestResult, outs.Perm outs2 →
      (processOut result.fresh outs2).lat = (processOut result.fresh outs).lat ∧
      (∀ k, mapGet (processOut result.fresh outs2).statusCount k =
        mapGet (processOut result.fresh outs).statusCount k) ∧
      (∀ k, mapGet (processOut result.fresh outs2).errors k =
        mapGet (processOut result.fresh outs).errors k)) := by
  have hfresh : result.fresh.lat = latency.fresh := rfl
  constructor
  · intro hne
    have hs := foldl_add_fresh_summarises (successDurations outs) hne hpos hsum
    rw [processOut_lat, hfresh]
    exact ⟨hs, average_bounds_of_summarises _ _ hs hne hpos⟩
  · intro outs2 hp
    have hp2 := successDurations_perm outs outs2 hp
    refine ⟨?_, ?_, ?_⟩
    · rw [processOut_lat, processOut_lat, hfresh]
      by_cases hne : successDurations outs = []
      · have : successDurations outs2 = [] := by
          have := hp2.length_eq
          rw [hne] at this
          exact List.length_eq_zero.mp this.symm
        rw [hne, this]
      · have hne2 : successDurations outs2 ≠ [] := by
          intro h
          have := hp2.length_eq
          rw [h] at this
          exact hne (List.length_eq_zero.mp this)
        have hs1 := foldl_add_fresh_summarises (successDurations outs) hne hpos hsum
        have hs2 := foldl_add_fresh_summarises (successDurations outs2) hne2
          (fun e he => hpos e (hp2.mem_iff.mpr he)) (by rw [← hp2.sum_eq]; exact hsum)
        exact summarises_unique _ _ _ _ hs2 hs1 hp2.symm
    · intro k
      rw [processOut_statusCount, processOut_statusCount, hp.countP_eq]
    · intro k
      rw [processOut_errors, processOut_errors, hp.countP_eq]

/-! ## Header entries: the split parts -/

theorem splitChars_append_sep (sep : Char) (name rest : List Char) (h : sep ∉ name) :
    splitChars sep (name ++ sep :: rest) = name :: splitChars sep rest := by
  induction name with
  | nil => simp [splitChars]
  | cons c name ih =>
    have hc : c ≠ sep := fun e => h (by simp [e])
    have hn : sep ∉ name := fun e => h (by simp [e])
    simp [splitChars, hc, ih hn]

theorem splitChars_headD (sep : Char) (cs : List Char) :
    (splitChars sep cs).headD [] = cs.takeWhile (fun c => c != sep) := by
  induction cs with
  | nil => simp [splitChars]
  | cons c cs ih =>
    by_cases hc : c = sep
    · simp [splitChars, hc]
    · simp only [splitChars, hc, if_false, List.headD_cons]
      rw [ih]
      simp [List.takeWhile_cons, hc]

/-- The parts `getRequest` uses of a header entry `name:rest`: the name, and
the text of `rest` up to its first `:`, which is all of `rest` only when
`rest` contains no `:`. -/
theorem stringsSplit_header_parts (name rest : List Char) (h : ':' ∉ name) :
    (stringsSplit (String.mk (name ++ ':' :: rest)) ':')[0]? = some (String.mk name) ∧
    (stringsSplit (String.mk (name ++ ':' :: rest)) ':')[1]? =
      some (String.mk (rest.takeWhile (fun c => c != ':'))) ∧
    (':' ∉ rest →
      (stringsSplit (String.mk (name ++ ':' :: rest)) ':')[1]? = some (String.mk rest)) := by
  have hsplit := splitChars_append_sep ':' name rest h
  have hhead := splitChars_headD ':' rest
  have hne := splitChars_ne_nil ':' rest
  have h1 : (stringsSplit (String.mk (name ++ ':' :: rest)) ':')[1]? =
      some (String.mk (rest.takeWhile (fun c => c != ':'))) := by
    cases hs : splitChars ':' rest with
    | nil => exact absurd hs hne
    | cons p ps =>
      rw [hs] at hhead
      simp only [List.headD_cons] at hhead
      simp [stringsSplit, hsplit, hs, hhead]
  refine ⟨by simp [stringsSplit, hsplit], h1, ?_⟩
  intro hr
  rw [h1]
  congr 2
  rw [List.takeWhile_eq_self_iff]
  intro c hc
  simp only [bne_iff_ne, ne_eq]
  intro e
  exact hr (e ▸ hc)

/-! ## The properties of the specification -/

/-- C3: the latency accumulator does not keep `min ≤ average` once a
zero-duration success is followed by a longer one. After the successes of
0ns and 5ns, consumed from the fresh accumulator, the count is 2, `min` is
5ns and `average()` is 2ns. -/
theorem latency_min_above_average_after_zero_sample :
    (processOut result.fresh [success 200 0, success 200 5]).lat.count = 2 ∧
    (processOut result.fresh [success 200 0, success 200 5]).lat.min = 5 ∧
    (processOut result.fresh [success 200 0, success 200 5]).lat.average = 2 ∧
    ¬ ((processOut result.fresh [success 200 0, success 200 5]).lat.min ≤
        (processOut result.fresh [success 200 0, success 200 5]).lat.average) := by
  decide

/-- C4: `latency.add` takes a `min` of zero for the unset state. Adding the
samples 0ns and 5ns to the fresh accumulator leaves `min` at 5ns, although
the smallest sample is 0ns: the second sample overwrites the first. -/
theorem latency_add_zero_sample_overwritten :
    (latency.fresh.add 0).min = 0 ∧
    ((latency.fresh.add 0).add 5).min = 5 ∧
    List.min? [(0 : Int), 5] = some 0 := by
  decide

/-- C5: consuming an outcome that carries an error adds one to the count of
that error's description and changes no other error count, no status count
and no field of the latency accumulator; hence the latency accumulator after
any outcomes is the one the successful outcomes alone produce, and three
successes at 200 with two `timeout` errors give `Statuses = {200: 3}`,
`Errors = {timeout: 2}` and the latency of the three successes. -/
theorem consume_error_frame (r : result) (res : RequestResult) (e : String)
    (h : res.Error = some e) :
    mapGet (consume r res).errors e = mapGet r.errors e + 1 ∧
    (∀ e2, e2 ≠ e → mapGet (consume r res).errors e2 = mapGet r.errors e2) ∧
    (consume r res).lat = r.lat ∧
    (consume r res).statusCount = r.statusCount ∧
    (∀ outs : List RequestResult,
      (processOut r outs).lat =
        (processOut r (outs.filter (fun o => o.Error = none))).lat) ∧
    (∀ a b c x y : Int,
      (summary (processOut result.fresh
        [success 200 a, failure "timeout" x, success 200 b, failure "timeout" y,
          success 200 c])).Statuses = [(200, 3)] ∧
      (summary (processOut result.fresh
        [success 200 a, failure "timeout" x, success 200 b, failure "timeout" y,
          success 200 c])).Errors = [("timeout", 2)] ∧
      (processOut result.fresh
        [success 200 a, failure "timeout" x, success 200 b, failure "timeout" y,
          success 200 c]).lat =
        (processOut result.fresh [success 200 a, success 200 b, success 200 c]).lat) := by
  refine ⟨?_, ?_, ?_, ?_, ?_, ?_⟩
  · rw [consume_error r res e h]
    exact mapGet_mapIncr_self r.errors e
  · intro e2 hne
    rw [consume_error r res e h]
    exact mapGet_mapIncr_ne r.errors e e2 hne
  · rw [consume_error r res e h]
  · rw [consume_error r res e h]
  · intro outs
    exact processOut_lat_filter outs r r rfl
  · intro a b c x y
    refine ⟨?_, ?_, ?_⟩
    · simp [summary, processOut, consume, success, failure, result.fresh, mapIncr]
    · simp [summary, processOut, consume, success, failure, result.fresh, mapIncr]
    · simp [processOut, consume, success, failure, result.fresh]

theorem consume_error_frame_witness :
    (failure "timeout" 3).Error = some "timeout" ∧
    mapGet (consume result.fresh (failure "timeout" 3)).errors "timeout" =
      mapGet result.fresh.errors "timeout" + 1 :=
  ⟨rfl, (consume_error_frame result.fresh (failure "timeout" 3) "timeout" rfl).1⟩

/-- C6: the statistics `processOut` produces depend on the arrival order.
The successes of 0ns and 5ns give `min = 5ns` when the zero sample arrives
first and `min = 0ns` when it arrives last, so the two orders of the same
outcomes give different summaries. -/
theorem processOut_order_dependent :
    List.Perm [success 200 0, success 200 5] [success 200 5, success 200 0] ∧
    (summary (processOut result.fresh [success 200 0, success 200 5])).Min = 5 ∧
    (summary (processOut result.fresh [success 200 5, success 200 0])).Min = 0 ∧
    summary (processOut result.fresh [success 200 0, success 200 5]) ≠
      summary (processOut result.fresh [success 200 5, success 200 0]) := by
  refine ⟨List.Perm.swap _ _ _, by decide, by decide, by decide⟩

/-- C7: `getRequest` splits a header entry on every `:`, not on the first
one only. For the entry `Referer:http://a/b` the split parts are `Referer`,
`http` and `//a/b`, and the request carries `Referer: http`: the text after
the second `:` is lost. -/
theorem getRequest_truncates_value_at_second_colon :
    stringsSplit "Referer:http://a/b" ':' = ["Referer", "http", "//a/b"] ∧
    getRequest acceptAll (headerConfig ["Referer:http://a/b"]) =
      Built.ok
        { Method := "GET", URL := "http://localhost:8080",
          Header := [("Referer", ["http"]), ("Content-Type", ["application/json"])],
          Body := none } ∧
    (∀ req, getRequest acceptAll (headerConfig ["Referer:http://a/b"]) = Built.ok req →
      req.Header.Get "Referer" = "http" ∧ req.Header.Get "Referer" ≠ "http://a/b") := by
  refine ⟨by decide, by decide, ?_⟩
  intro req hreq
  have h : getRequest acceptAll (headerConfig ["Referer:http://a/b"]) =
      Built.ok
        { Method := "GET", URL := "http://localhost:8080",
          Header := [("Referer", ["http"]), ("Content-Type", ["application/json"])],
          Body := none } := by decide
  rw [h] at hreq
  injection hreq with hreq
  subst hreq
  exact ⟨by decide, by decide⟩

/-- C10, the empty name: an entry with an empty name before the `:` does not
make `getRequest` fail. With a valid method and URL and the single header
entry `:v`, `getRequest` returns a request, whose header map has the value
`v` under the empty name. -/
theorem getRequest_accepts_empty_header_name :
    acceptAll.newRequestError (headerConfig [":v"]).Method (headerConfig [":v"]).URL = none ∧
    (stringsSplit ":v" ':')[0]? = some "" ∧
    getRequest acceptAll (headerConfig [":v"]) =
      Built.ok
        { Method := "GET", URL := "http://localhost:8080",
          Header := [("", ["v"]), ("Content-Type", ["application/json"])],
          Body := none } := by
  refine ⟨rfl, by decide, by decide⟩

/-- C10, the missing separator: when `http.NewRequest` accepts the method and the URL,
`getRequest` panics with an out-of-range index if and only if some header
entry contains no `:`; it then returns neither a request nor an error. -/
theorem getRequest_panics_iff_header_without_colon (env : Env) (config : Configuration)
    (hvalid : env.newRequestError config.Method config.URL = none) :
    getRequest env config = Built.panic "index out of range" ↔
      ∃ h ∈ config.Headers, ':' ∉ h.data := by
  rw [← setHeaders_eq_none_iff config.Headers []]
  by_cases hb : config.Body = ""
  · cases hs : setHeaders [] config.Headers <;>
      simp [getRequest, newRequest, hvalid, hb, hs]
  · cases hs : setHeaders [] config.Headers <;>
      simp [getRequest, newRequest, hvalid, hb, hs]

theorem getRequest_panics_iff_header_without_colon_witness :
    acceptAll.newRequestError (headerConfig ["Accept"]).Method
        (headerConfig ["Accept"]).URL = none ∧
    getRequest acceptAll (headerConfig ["Accept"]) = Built.panic "index out of range" :=
  ⟨rfl, (getRequest_panics_iff_header_without_colon acceptAll (headerConfig ["Accept"])
    rfl).mpr ⟨"Accept", by decide, by decide⟩⟩

/-- C1: in every state a run reaches, under any interleaving, the number of
calls in flight is at most `Concurrency`. The slots held in `workerChan`
are exactly those of the workers that have not finished plus the one the
dispatcher has acquired for the worker it is about to start, at most
`Concurrency` slots are held, and with all of them held the acquire of the
dispatcher is blocked; the dispatcher starts a worker only with a slot in
hand, and a worker frees a slot only at its last step, after its emit. -/
theorem Run_inFlight_le_concurrency (env : Env) (config : Configuration)
    (schedule : List Action) (s : State) (h : Run env config schedule = some s) :
    (inFlight s : Int) ≤ config.Concurrency ∧
    countWorkers WorkerPc.alive s.workers + s.disp.slotInHand = s.workerChan ∧
    (s.workerChan : Int) ≤ config.Concurrency ∧
    (∀ req, s.disp = DispPc.acquiring req → (s.workerChan : Int) = config.Concurrency →
      step env config s Action.dispatcher = none) ∧
    (∀ t, step env config s Action.dispatcher = some t →
      s.workers.length < t.workers.length → s.disp.slotInHand = 1) ∧
    (∀ i resp elapsed t, step env config s (Action.worker i resp elapsed) = some t →
      t.workerChan < s.workerChan → s.workers[i]? = some WorkerPc.releasing) := by
  unfold Run at h
  split at h
  · simp at h
  · rename_i s0 hs0
    have hc := NewStrest_concurrency config s0 hs0
    obtain ⟨h1, h2, _⟩ := exec_slots env config schedule s0 s h (NewStrest_slots config s0 hs0)
    have hfl := inFlight_le_alive s.workers
    have hcap : (rangeCount config.Concurrency : Int) = config.Concurrency := by
      unfold rangeCount
      omega
    refine ⟨?_, h1, ?_, ?_, ?_, ?_⟩
    · unfold inFlight
      omega
    · omega
    · intro req hd hfull
      have : ¬ s.workerChan < rangeCount config.Concurrency := by omega
      unfold step stepDispatcher
      split
      · rfl
      · simp [hd, this]
    · intro t ht hlen
      unfold step at ht
      split at ht
      · simp at ht
      · simp only at ht
        unfold stepDispatcher at ht
        split at ht
        · simp at ht
        · split at ht
          · injection ht with ht; subst ht; simp at hlen
          · split at ht
            · injection ht with ht; subst ht; simp at hlen
            · simp at ht
        · split at ht
          · injection ht with ht; subst ht; simp at hlen
          · simp at ht
        · rename_i req hd
          simp [hd, DispPc.slotInHand]
        · split at ht
          · split at ht <;> (injection ht with ht; subst ht; simp at hlen)
          · simp at ht
        · simp at ht
    · intro i resp elapsed t ht hlt
      unfold step at ht
      split at ht
      · simp at ht
      · simp only at ht
        unfold work at ht
        split at ht
        · simp at ht
        · injection ht with ht; subst ht; simp at hlt
        · split at ht
          · injection ht with ht; subst ht; simp at hlt
          · split at ht
            · injection ht with ht; subst ht; simp at hlt
            · split at ht
              · injection ht with ht; subst ht; simp at hlt
              · simp at ht
        · split at ht <;> (injection ht with ht; subst ht; simp at hlt)
        · rename_i hw
          exact hw
        · simp at ht

theorem Run_inFlight_le_concurrency_witness :
    (Run acceptAll (loadConfig 2 2) twoInFlight).map inFlight = some 2 ∧
    ∃ s, Run acceptAll (loadConfig 2 2) twoInFlight = some s ∧
      (inFlight s : Int) ≤ (loadConfig 2 2).Concurrency := by
  refine ⟨by decide, ?_⟩
  cases h : Run acceptAll (loadConfig 2 2) twoInFlight with
  | none => exact absurd h (by decide)
  | some s => exact ⟨s, rfl, (Run_inFlight_le_concurrency _ _ _ s h).1⟩

/-- C2: the summary a run returns, under any interleaving and with any
answers of the send capability, records `Requests` minus the number of
failed builds outcomes, hence at most `Requests`; and a run does return
such a summary, for any answers, when the concurrency limit is at least 1
and `getRequest` does not panic. -/
theorem Run_total_outcomes (env : Env) (config : Configuration) :
    (∀ (schedule : List Action) (s : State) (r : Result),
      Run env config schedule = some s → s.main = MainPc.returned r →
        r.total = config.Requests - buildFailures env config ∧ r.total ≤ config.Requests) ∧
    (1 ≤ config.Concurrency → 0 ≤ config.Requests →
      (∀ msg, getRequest env config ≠ Built.panic msg) →
      ∀ answers : List (Response × Int),
        answers.length = expected env config (rangeCount config.Requests) →
        ∃ s r, Run env config (fullSchedule env config answers) = some s ∧
          s.main = MainPc.returned r ∧
          r = summary (processOut result.fresh (outcomes answers)) ∧
          r.total = config.Requests - buildFailures env config) := by
  constructor
  · intro schedule s r h hr
    obtain ⟨_, outs, h1, h2⟩ := Run_returned env config schedule s r h hr
    have ht : r.total = outs.length := by rw [h1]; exact summary_total outs
    constructor
    · rw [ht, h2]
    · rw [ht, h2]
      omega
  · intro hC hR hpanic answers hlen
    obtain ⟨s, h1, h2⟩ := Run_returns env config answers (by omega) hR (fun _ => hpanic) hlen
      (fun _ => hC)
    refine ⟨s, _, h1, h2, rfl, ?_⟩
    obtain ⟨_, outs, h3, h4⟩ := Run_returned env config _ s _ h1 h2
    have ht := summary_total outs
    rw [← h3] at ht
    rw [ht, h4]

theorem Run_total_outcomes_witness :
    (∃ s r, Run acceptAll (loadConfig 2 1)
        (fullSchedule acceptAll (loadConfig 2 1)
          [(Response.status 200, 7), (Response.transportError "timeout", 9)]) = some s ∧
      s.main = MainPc.returned r ∧
      r = summary (processOut result.fresh
        (outcomes [(Response.status 200, 7), (Response.transportError "timeout", 9)])) ∧
      r.total = (loadConfig 2 1).Requests - buildFailures acceptAll (loadConfig 2 1)) ∧
    (loadConfig 2 1).Requests - buildFailures acceptAll (loadConfig 2 1) = 2 :=
  ⟨(Run_total_outcomes acceptAll (loadConfig 2 1)).2 (by decide) (by decide)
    (by
      intro msg
      rw [show getRequest acceptAll (loadConfig 2 1) =
        Built.ok ⟨"GET", "http://localhost:8080", [("Content-Type", ["application/json"])],
          none⟩ from by decide]
      exact fun h => Built.noConfusion h) _ (by decide), by decide⟩

/-- C9: `average()` is the truncated quotient `sum / count` when the count is
positive and the zero duration when the count is zero; a run with
`Requests = 0` that returns, returns the summary with `Min`, `Max` and
`Average` zero and empty `Statuses` and `Errors`, and such a run does
return when the warm-up does not panic. -/
theorem average_and_empty_run (l : latency) :
    (0 < l.count → l.average = Int.tdiv l.sum l.count) ∧
    (l.count = 0 → l.average = 0) ∧
    (∀ (env : Env) (config : Configuration) (schedule : List Action) (s : State)
      (r : Result), config.Requests = 0 → Run env config schedule = some s →
        s.main = MainPc.returned r → r = Result.zero) ∧
    (∀ (env : Env) (config : Configuration), config.Requests = 0 →
      0 ≤ config.Concurrency →
      (0 < config.Warmup → ∀ msg, getRequest env config ≠ Built.panic msg) →
      ∃ s, Run env config (fullSchedule env config []) = some s ∧
        s.main = MainPc.returned Result.zero) := by
  refine ⟨?_, ?_, ?_, ?_⟩
  · intro h
    have : l.count ≠ 0 := by omega
    simp [latency.average, this]
  · intro h
    simp [latency.average, h]
  · intro env config schedule s r hreq h hr
    obtain ⟨_, outs, h1, h2⟩ := Run_returned env config schedule s r h hr
    have hb : (buildFailures env config : Int) = 0 := by
      rw [buildFailures_eq]
      simp [rangeCount, hreq]
    have hnil : outs = [] := by
      apply List.length_eq_zero.mp
      omega
    subst hnil
    rw [h1]
    rfl
  · intro env config hreq hC hW
    have hexp : expected env config (rangeCount config.Requests) = 0 := by
      simp [expected, rangeCount, hreq]
    obtain ⟨s, h1, h2⟩ := Run_returns env config [] hC (by omega)
      (fun h => by
        rcases h with h | h
        · exact hW h
        · omega)
      (by simp [hexp]) (fun h => absurd rfl h)
    exact ⟨s, h1, h2⟩

theorem average_and_empty_run_witness :
    (0 : Int) < (latency.mk 3 9 2 13).count ∧
    (latency.mk 3 9 2 13).average = 6 ∧
    ∃ s, Run acceptAll (loadConfig 0 1) (fullSchedule acceptAll (loadConfig 0 1) []) = some s ∧
      s.main = MainPc.returned Result.zero :=
  ⟨by decide,
    ((average_and_empty_run (latency.mk 3 9 2 13)).1 (by decide)).trans (by decide),
    (average_and_empty_run (latency.mk 3 9 2 13)).2.2.2 acceptAll (loadConfig 0 1) rfl
      (by decide) (by intro h; exact absurd h (by decide))⟩

/-- C8: in every request `getRequest` returns, the `Content-Type` header has
the single value `application/json`, under whatever letter case the name is
looked up, and no other entry of the header map has `content-type` as its
name in any letter case: a caller header such as `content-type:text/plain`
is overridden. -/
theorem getRequest_content_type (env : Env) (config : Configuration) (req : Request)
    (h : getRequest env config = Built.ok req) :
    req.Header.Values "Content-Type" = ["application/json"] ∧
    req.Header.Get "Content-Type" = "application/json" ∧
    (∀ name : String, name.data.map Char.toLower = "content-type".data →
      req.Header.Values name = ["application/json"]) ∧
    (∀ (k : String) (vs : List String), (k, vs) ∈ req.Header →
      k.data.map Char.toLower = "content-type".data →
        k = "Content-Type" ∧ vs = ["application/json"]) ∧
    (req.Header.filter (fun p => p.1.data.map Char.toLower = "content-type".data)).length = 1 := by
  obtain ⟨hd, hw, hreq⟩ := getRequest_header env config req h
  have hwf : req.Header.WellFormed := by
    rw [hreq]
    exact headerPut_wellFormed hd _ _ hw
  have hct : canonicalMIMEHeaderKey "Content-Type" = "Content-Type" := by decide
  have hval : headerLookup req.Header "Content-Type" = ["application/json"] := by
    rw [hreq]
    unfold Header.Set
    rw [hct]
    exact headerLookup_headerPut_self hd _ _
  have hname : ∀ name : String, name.data.map Char.toLower = "content-type".data →
      canonicalMIMEHeaderKey name = "Content-Type" := by
    intro name hn
    apply canonical_content_type
    unfold canonicalMIMEHeaderKey
    by_cases hv : name.data.all validHeaderFieldByte = true
    · rw [if_pos hv]
      simp only [map_toLower_canonChars]
      exact hn
    · rw [if_neg hv]
      exact hn
  have hentry : ∀ (k : String) (vs : List String), (k, vs) ∈ req.Header →
      k.data.map Char.toLower = "content-type".data →
        k = "Content-Type" ∧ vs = ["application/json"] := by
    intro k vs hm hk
    obtain ⟨name, hkn⟩ := hwf.2 k (List.mem_map.mpr ⟨(k, vs), hm, rfl⟩)
    have hk2 : k = "Content-Type" := by
      rw [hkn]
      apply canonical_content_type
      rw [← hkn]
      exact hk
    refine ⟨hk2, ?_⟩
    have := headerLookup_of_mem req.Header k vs hwf.1 hm
    rw [hk2, hval] at this
    exact this.symm
  refine ⟨?_, ?_, ?_, hentry, ?_⟩
  · unfold Header.Values
    rw [hct]
    exact hval
  · unfold Header.Get Header.Values
    rw [hct, hval]
    rfl
  · intro name hn
    unfold Header.Values
    rw [hname name hn]
    exact hval
  · have hfilter : req.Header.filter
        (fun p => p.1.data.map Char.toLower = "content-type".data) =
        req.Header.filter (fun p => p.1 = "Content-Type") := by
      apply List.filter_congr
      intro p hp
      obtain ⟨k, vs⟩ := p
      by_cases hk : k = "Content-Type"
      · subst hk
        have hl : "Content-Type".data.map Char.toLower = "content-type".data := by decide
        simp [hl]
      · have hk2 : ¬ k.data.map Char.toLower = "content-type".data :=
          fun e => hk (hentry k vs hp e).1
        simp [hk, hk2]
    rw [hfilter]
    apply filter_key_length req.Header "Content-Type" hwf.1
    rw [hreq]
    unfold Header.Set
    rw [hct]
    exact headerPut_mem_keys hd _ _

theorem getRequest_content_type_witness :
    getRequest acceptAll (headerConfig ["content-type:text/plain", "Accept:text/html"]) =
      Built.ok
        { Method := "GET", URL := "http://localhost:8080",
          Header := [("Content-Type", ["application/json"]), ("Accept", ["text/html"])],
          Body := none } ∧
    Header.Values [("Content-Type", ["application/json"]), ("Accept", ["text/html"])]
      "Content-Type" = ["application/json"] :=
  ⟨by decide, (getRequest_content_type acceptAll
    (headerConfig ["content-type:text/plain", "Accept:text/html"])
    { Method := "GET", URL := "http://localhost:8080",
      Header := [("Content-Type", ["application/json"]), ("Accept", ["text/html"])],
      Body := none } (by decide)).1⟩

end Strest
